import Mathlib

/- Verification development for the stochastic-compression and
   distributed-sparse-vector core of the FRIES repository.

   The embedding is the single-process instantiation of the code: with one
   MPI rank every collective in the sources reduces to the identity (the
   code compiled without USE_MPI is literally sequential, with
   proc_rank = 0 and n_procs = 1 hard-coded), so that instantiation is a
   direct translation of the sources.  C doubles are idealized as elements
   of a linear ordered field K; places where the source relies on IEEE
   special values (division by zero yielding an infinity or NaN inside a
   comparison) are embedded by the equivalent total-function form and noted
   in comments. -/

namespace FRIES

variable {K : Type} [LinearOrderedField K]

/-- Numeric literal 1e-9 from compress_utils.cpp (find_preserve). -/
def eps9 (K : Type) [LinearOrderedField K] : K := 1 / 1000000000

/-- Numeric literal 1e-8 from compress_utils.cpp (find_keep_sub). -/
def eps8 (K : Type) [LinearOrderedField K] : K := 1 / 100000000

/-- Numeric literal 1e-10 from compress_utils.cpp (find_keep_sub). -/
def eps10 (K : Type) [LinearOrderedField K] : K := 1 / 10000000000

/-- Sum of magnitudes of a list, as computed by the loc_one_norm loops. -/
def absSum (l : List K) : K := (l.map (fun v => |v|)).sum

/-- Integer sign expression ((tmp_val greater 0) - (tmp_val less 0)) used in
sys_comp to give the surviving element the sign of the original value. -/
def sgn (v : K) : K := (if 0 < v then 1 else 0) - (if v < 0 then 1 else 0)

/- ----------------------------------------------------------------------
   ElementBuffer (class Adder, vec_utils.hpp).
   Keys are abstracted as natural numbers; the initiator flag, which the
   source packs into the otherwise unused high bit of the copied index
   (set_bit(cpy_idx, idx_bits)), is carried as an explicit Bool next to the
   key, and a buffered element is the triple (key, flag, value).
   ---------------------------------------------------------------------- -/

/-- State of an Adder object: capacity is send_vals_.cols() (elements per
destination process), sendCts is the send_cts_ array and sendBuf the
per-destination buffer contents (send_idx_ and send_vals_ combined). -/
structure AdderSt (K : Type) where
  capacity : ℕ
  sendCts : ℕ → ℕ
  sendBuf : ℕ → List (ℕ × Bool × K)

/-- Adder add from vec_utils.hpp lines 956-971.  The source first checks
count against capacity and throws a runtime_error when the buffer is full;
the thrown exception is embedded as the value none.  Otherwise the element
is appended at position count for the destination process, the count is
incremented, and the function returns whether the buffer is still not full
afterwards. -/
def adder_add (st : AdderSt K) (key : ℕ) (v : K) (proc : ℕ) (ini : Bool) :
    Option (AdderSt K × Bool) :=
  if st.capacity ≤ st.sendCts proc then
    none
  else
    some ({ st with
            sendCts := fun p => if p = proc then st.sendCts proc + 1 else st.sendCts p,
            sendBuf := fun p => if p = proc then st.sendBuf proc ++ [(key, ini, v)]
                                else st.sendBuf p },
          st.sendCts proc + 1 < st.capacity)

/- ----------------------------------------------------------------------
   DistVec (vec_utils.hpp).
   The backing storage is modelled with total functions over positions:
   values is the values_ matrix (row = internal vector index, column =
   position), keys is the indices_ array (position to key), and the hash
   table HashIndex (class HashTable, whose implementation file det_hash.hpp
   is not among the given sources) is modelled from the spec: a map from a
   key to the slot index holding it, supporting lookup, insert-if-missing
   and delete.  The diagonal-element cache (matr_el_) and the
   occupied-orbital cache (occ_orbs_), which no modelled operation reads,
   are elided.  The expand() member only doubles the capacity bound without
   moving any slot, so capacity is left unbounded in the model. -/

structure DVState (K : Type) where
  nVecs : ℕ
  values : ℕ → ℕ → K
  currVec : ℕ
  currSize : ℕ
  nDense : ℕ
  stack : List ℕ
  nNonz : ℤ
  minDelIdx : ℕ
  hash : ℕ → Option ℕ
  active : ℕ → Bool
  keys : ℕ → ℕ
  noniniOccAdd : ℕ

/-- DistVec del_at_pos from vec_utils.hpp lines 458-476.  Returns early if
the position is not active; otherwise computes whether every internal
vector holds zero at the position, and if so and the position is at least
min_del_idx_, pushes the position on the free stack, deletes the hash-table
entry for its key, decrements n_nonz_ and deactivates the position. -/
def del_at_pos (st : DVState K) (pos : ℕ) : DVState K :=
  if st.active pos = false then st
  else
    let allZero := (List.range st.nVecs).all fun v => decide (st.values v pos = 0)
    if st.minDelIdx ≤ pos ∧ allZero then
      { st with
        stack := pos :: st.stack,
        hash := fun k => if k = st.keys pos then none else st.hash k,
        nNonz := st.nNonz - 1,
        active := fun p => if p = pos then false else st.active p }
    else st

/-- DistVec initialize_at_pos from vec_utils.hpp lines 143-150: zero every
value row at the position, mark the position active and record the
occupied-orbital list (elided). -/
def init_at_pos (st : DVState K) (pos : ℕ) : DVState K :=
  { st with
    values := fun v p => if p = pos ∧ v < st.nVecs then 0 else st.values v p,
    active := fun p => if p = pos then true else st.active p }

/-- Slot allocation inside add_elements (vec_utils.hpp lines 618-630): when
the hash read returned a pending entry, pop the free stack; if the stack is
empty take the next fresh position at curr_size_ (growing storage if
needed, which the model elides); then copy the key into indices_,
initialize the slot and increment n_nonz_. -/
def alloc_slot (st : DVState K) (key : ℕ) : ℕ × DVState K :=
  let (pos, st1) :=
    match st.stack with
    | p :: rest => (p, { st with stack := rest })
    | [] => (st.currSize, { st with currSize := st.currSize + 1 })
  let st2 := init_at_pos st1 pos
  (pos, { st2 with
          keys := fun p => if p = pos then key else st2.keys p,
          hash := fun k => if k = key then some pos else st2.hash k,
          nNonz := st2.nNonz + 1 })

/-- Core of the add_elements loop body (vec_utils.hpp lines 631-639), run
once a slot index has been resolved: the initiator admission rule.  nonz is
whether the slot holds a nonzero value in the origin reference column;
the value is added into the current column when the initiator flag is set
or nonz holds; nonini_occ_add counts the non-initiator additions into
occupied slots; the buffered value is zeroed (vals is in-out in the
source, the second component returned here). -/
def apply_add (st : DVState K) (pos : ℕ) (ini : Bool) (v : K) (origin : ℕ) :
    DVState K × K :=
  let nonz := st.values origin pos ≠ 0
  let shouldAdd := ini = true ∨ nonz
  let st1 := { st with
               noniniOccAdd := st.noniniOccAdd + (if ini = false ∧ nonz then 1 else 0) }
  (if shouldAdd then
      { st1 with
        values := fun vi p =>
          if vi = st.currVec ∧ p = pos then st.values vi p + v else st.values vi p }
    else st1,
   0)

/-- One iteration of the add_elements loop (vec_utils.hpp lines 610-639) for
an incoming element: read_bit / zero_bit extract the initiator flag (kept
here as an explicit Bool), the hash read looks the key up, inserting a
pending entry exactly when the flag is set; a pending entry triggers slot
allocation; if a slot was resolved the admission rule is applied, otherwise
the element is dropped with its buffered value left as is. -/
def add_element (st : DVState K) (key : ℕ) (ini : Bool) (v : K) (origin : ℕ) :
    DVState K × K :=
  match st.hash key, ini with
  | some pos, _ => apply_add st pos ini v origin
  | none, true =>
      let (pos, st1) := alloc_slot st key
      apply_add st1 pos true v origin
  | none, false => (st, v)

/-- DistVec add_elements from vec_utils.hpp lines 606-641: fold the single
element step over the received batch, collecting the updated in-out value
buffer. -/
def add_elements (st : DVState K) (batch : List (ℕ × Bool × K)) (origin : ℕ) :
    DVState K × List K :=
  match batch with
  | [] => (st, [])
  | (key, ini, v) :: rest =>
      let (st1, v1) := add_element st key ini v origin
      let (st2, vs) := add_elements st1 rest origin
      (st2, v1 :: vs)

/- ----------------------------------------------------------------------
   CompressionEngine phase 1: find_preserve (compress_utils.cpp lines
   20-84), single-process instantiation.  The helper functions heapify and
   sift_down are declared in a header that is not among the given sources.
   Modelled from the spec: they maintain a max-heap over the magnitudes of
   the values, so each pop of the heap returns an index whose magnitude is
   maximal among those remaining; the spec leaves the tie-break order
   unspecified, and the model takes the earliest such index. -/

/-- Modelled from the spec: the index of a maximal-magnitude element among
the remaining heap indices (the element the max-heap pop of find_preserve
returns), earliest index on ties; none when the heap is empty. -/
def maxIdx (values : List K) : List ℕ → Option ℕ
  | [] => none
  | i :: rest =>
    match maxIdx values rest with
    | none => some i
    | some k => if |values.getD i 0| < |values.getD k 0| then some k else some i

/-- Combined pop loop of find_preserve (compress_utils.cpp lines 42-71).
With a single process the outer while loop re-enters the inner loop with
the very state it exited on and the same threshold, so the nest collapses
to one loop that keeps popping the maximal remaining element while its
magnitude reaches glob_one_norm / (n_samp - already_popped).  When the
popped count equals n_samp the C denominator, an unsigned 0 converted to
double, makes the threshold +inf or NaN and the comparison false; that is
embedded as the conjunct popped < n0.  The fuel argument is the heap size,
which bounds the number of pops.  Returns (popped indices in pop order,
remaining heap, final glob_one_norm, final popped count). -/
def find_preserve_loop (values : List K) (n0 : ℕ) :
    ℕ → List ℕ → K → ℕ → List ℕ × List ℕ × K × ℕ
  | 0, heap, g, popped => ([], heap, g, popped)
  | fuel + 1, heap, g, popped =>
    match maxIdx values heap with
    | none => ([], heap, g, popped)
    | some i =>
      if popped < n0 ∧ g / ((n0 - popped : ℕ) : K) ≤ |values.getD i 0| then
        let r := find_preserve_loop values n0 fuel (heap.erase i)
                   (g - |values.getD i 0|) (popped + 1)
        (i :: r.1, r.2.1, r.2.2.1, r.2.2.2)
      else ([], heap, g, popped)

/-- Result record of find_preserve: keep is the keep_idx array on return
(the caller passes it zeroed), nSamp the in-out sample budget on return,
globalNorm the out-parameter holding the initial one-norm, ret the
returned loc_one_norm.  The fields kept, heapF, gFinal and popped expose
the state of the threshold loop at exit for the statements below. -/
structure FPOut (K : Type) where
  keep : List Bool
  nSamp : ℕ
  globalNorm : K
  ret : K
  kept : List ℕ
  heapF : List ℕ
  gFinal : K
  popped : ℕ

/-- find_preserve from compress_utils.cpp lines 20-84 (single process, with
keep_idx all zero on entry as every caller arranges): computes the initial
one-norm, runs the threshold loop over the heap of all indices, then
either collapses n_samp to 0 when the remaining norm is below 1e-9 or
recomputes the returned loc_one_norm as the sum of magnitudes of the
elements not marked keep. -/
def find_preserve (values : List K) (n0 : ℕ) : FPOut K :=
  let g0 := absSum values
  let heap0 := List.range values.length
  let r := find_preserve_loop values n0 heap0.length heap0 g0 0
  let ks := r.1
  let keep := heap0.map fun i => decide (i ∈ ks)
  if r.2.2.1 < eps9 K then
    { keep := keep, nSamp := 0, globalNorm := g0, ret := 0,
      kept := ks, heapF := r.2.1, gFinal := r.2.2.1, popped := r.2.2.2 }
  else
    { keep := keep, nSamp := n0 - r.2.2.2, globalNorm := g0,
      ret := (heap0.map fun i => if i ∈ ks then 0 else |values.getD i 0|).sum,
      kept := ks, heapF := r.2.1, gFinal := r.2.2.1, popped := r.2.2.2 }

/- ----------------------------------------------------------------------
   CompressionEngine phase 2: seed_sys and sys_comp (compress_utils.cpp
   lines 114-136 and 240-288), single-process instantiation. -/

/-- seed_sys from compress_utils.cpp lines 114-136 with one process: the
loop over lower-ranked processes is empty so lbound is 0, global_norm is
norms[0], and the returned lower bound is 0; only the updated random
number matters, computed exactly as in the source. -/
def seed_sys [FloorRing K] (norm : K) (m : ℕ) (u : K) : K :=
  let lbound : K := 0
  let r1 := u * (norm / (m : K))
  let r2 := r1 + norm / (m : K) * ((⌊lbound * (m : K) / norm⌋ : ℤ) : K)
  if r2 < lbound then r2 + norm / (m : K) else r2

/-- Scan loop of sys_comp (compress_utils.cpp lines 266-284) over the pairs
(value, keep_exact flag).  A flagged element contributes its magnitude to
the new local norm and has its flag cleared; an unflagged nonzero element
widens lbound by its magnitude and either survives as
glob_norm / n_samp times its sign (consuming the pivot rn_sys, which
advances by glob_norm / n_samp) or is zeroed with its flag set.  The samp
flag embeds the n_samp = 0 path in which the source sets rn_sys to
INFINITY: every comparison rn_sys less-than lbound is then false and stays
false after the increments, which the flag being false models.  Returns
(new values, new flags, new loc_norms entry of this process). -/
def sys_comp_loop (glob : K) (m : ℕ) :
    List (K × Bool) → K → K → Bool → List K × List Bool × K
  | [], _, _, _ => ([], [], 0)
  | (v, kf) :: rest, lb, rn, samp =>
    if kf = true then
      let r := sys_comp_loop glob m rest lb rn samp
      (v :: r.1, false :: r.2.1, |v| + r.2.2)
    else if v ≠ 0 then
      let lb2 := lb + |v|
      if samp = true ∧ rn < lb2 then
        let r := sys_comp_loop glob m rest lb2 (rn + glob / (m : K)) samp
        (glob / (m : K) * sgn v :: r.1, false :: r.2.1, glob / (m : K) + r.2.2)
      else
        let r := sys_comp_loop glob m rest lb2 rn samp
        ((0 : K) :: r.1, true :: r.2.1, r.2.2)
    else
      let r := sys_comp_loop glob m rest lb rn samp
      (v :: r.1, kf :: r.2.1, r.2.2)

/-- sys_comp from compress_utils.cpp lines 240-288 with one process: the
broadcast of rand_num is the identity, tmp_glob_norm is the single entry
locNorm of loc_norms, and the scan starts from lbound 0 with the seeded
random number when n_samp is positive, or with the INFINITY sentinel
(samp flag false) when n_samp is 0. -/
def sys_comp [FloorRing K] (vals : List K) (locNorm : K) (m : ℕ)
    (keep : List Bool) (u : K) : List K × List Bool × K :=
  if 0 < m then
    sys_comp_loop locNorm m (vals.zip keep) 0 (seed_sys locNorm m u) true
  else
    sys_comp_loop locNorm m (vals.zip keep) 0 0 false

/-- Composition used by the drivers and the tests: find_preserve on a
freshly zeroed keep_idx array, then sys_comp on the same values with the
returned loc_one_norm as the single loc_norms entry, the updated n_samp
and the marked keep_idx array. -/
def fri_compress [FloorRing K] (values : List K) (n0 : ℕ) (u : K) :
    List K × List Bool × K :=
  let fp := find_preserve values n0
  sys_comp values fp.ret fp.nSamp fp.keep u

/-- Number of nonzero entries of a vector. -/
def countNZ (l : List K) : ℕ := (l.filter fun v => decide (v ≠ 0)).length

/- ----------------------------------------------------------------------
   CompressionEngine hierarchical phase 1: find_keep_sub
   (compress_utils.cpp lines 139-238), single-process instantiation. -/

/-- Unsigned 32-bit wrap of nsamp - sampled: the source subtracts the int
loc_sampled from the unsigned int n_samp, which wraps modulo 2 to the 32
when loc_sampled exceeds n_samp. -/
def uwrap (nsamp sampled : ℕ) : ℕ :=
  ((((nsamp : ℤ) - (sampled : ℤ)) % (2 ^ 32 : ℤ)).toNat)

/-- Threshold comparison el greater-or-equal g / d where d is the unsigned
denominator converted to double.  When d = 0 the C quotient is +inf (g
positive), NaN (g zero) or -inf (g negative) and the comparison holds only
in the -inf case; for positive d it is real division. -/
def threshMet (el g : K) (d : ℕ) : Prop :=
  if d = 0 then g < 0 else g / (d : K) ≤ el

instance (el g : K) (d : ℕ) : Decidable (threshMet el g d) := by
  unfold threshMet; infer_instance

/-- State of the determinant loop of find_keep_sub: the keep_idx matrix,
the wt_remain array, loc_one_norm, glob_one_norm, loc_sampled, and the
flag recording that the break on negative glob_one_norm in the fixed-
fan-out branch (compress_utils.cpp lines 179-181) exited the loop. -/
structure FksSt (K : Type) where
  keep : List (List Bool)
  wtRemain : List K
  locN : K
  g : K
  sampled : ℕ
  broke : Bool

/-- State of the inner sub-weight loop of find_keep_sub (compress_utils.cpp
lines 185-209): the keep row of the current determinant, loc_one_norm,
glob_one_norm, loc_sampled, the stored keep_thresh (as the numerator and
unsigned denominator it was computed from), and the running sub_remain. -/
structure FksSubSt (K : Type) where
  keepRow : List Bool
  locN : K
  g : K
  sampled : ℕ
  threshG : K
  threshD : ℕ
  subRemain : K

/-- Sub-weight loop of find_keep_sub (compress_utils.cpp lines 190-208) for
one determinant of magnitude el and weight row row: each unkept sub-choice
of magnitude el times its weight is either marked kept (when it meets the
stored threshold and its magnitude exceeds 1e-10), subtracting it from
both norms, breaking out when glob_one_norm turns negative (the transient
zeroing of wt_remain there is overwritten by sub_remain right after the
loop and so is not recorded) and refreshing the stored threshold
otherwise, or added to sub_remain. -/
def fks_sub_loop (nsamp : ℕ) (el : K) (row : List K) :
    List ℕ → FksSubSt K → FksSubSt K
  | [], s => s
  | sub :: rest, s =>
    if (s.keepRow.getD sub false) = true then fks_sub_loop nsamp el row rest s
    else
      let sm := el * row.getD sub 0
      if threshMet sm s.threshG s.threshD ∧ eps10 K < |sm| then
        let g2 := s.g - sm
        let s2 := { s with keepRow := s.keepRow.set sub true,
                           sampled := s.sampled + 1,
                           locN := s.locN - sm, g := g2 }
        if g2 < 0 then s2
        else fks_sub_loop nsamp el row rest
               { s2 with threshG := g2, threshD := uwrap nsamp (s.sampled + 1) }
      else fks_sub_loop nsamp el row rest { s with subRemain := s.subRemain + sm }

/-- Body of the determinant loop of find_keep_sub (compress_utils.cpp lines
167-212) for one determinant index det: compute the threshold from the
current norms; if the determinant magnitude meets it, either handle the
fixed-fan-out case (mark the whole row kept when the per-division share
also meets the threshold and the row is not yet kept, zero its wt_remain,
charge n_div samples and break the loop when glob_one_norm turns negative)
or run the sub-weight loop and store its sub_remain into wt_remain. -/
def fks_det_body (nsamp : ℕ) (values : List K) (ndiv : List ℕ)
    (subwts : List (List K)) (subsizes : Option (List ℕ)) (ncols : ℕ)
    (det : ℕ) (s : FksSt K) : FksSt K :=
  let el := values.getD det 0
  let d := uwrap nsamp s.sampled
  if threshMet el s.g d then
    if 0 < ndiv.getD det 0 then
      if threshMet (el / ((ndiv.getD det 0 : ℕ) : K)) s.g d ∧
          ¬ ((s.keep.getD det []).getD 0 false = true) then
        let g2 := s.g - el
        { s with keep := s.keep.set det ((s.keep.getD det []).set 0 true),
                 wtRemain := s.wtRemain.set det 0,
                 sampled := s.sampled + ndiv.getD det 0,
                 locN := s.locN - el, g := g2,
                 broke := decide (g2 < 0) }
      else s
    else
      let nsub := match subsizes with | some ss => ss.getD det 0 | none => ncols
      let s0 : FksSubSt K :=
        ⟨s.keep.getD det [], s.locN, s.g, s.sampled, s.g, d, 0⟩
      let s1 := fks_sub_loop nsamp el (subwts.getD det []) (List.range nsub) s0
      { s with keep := s.keep.set det s1.keepRow,
               wtRemain := s.wtRemain.set det s1.subRemain,
               locN := s1.locN, g := s1.g, sampled := s1.sampled }
  else s

/-- Determinant loop of find_keep_sub: fold the body over the determinant
indices, stopping once the break flag is set. -/
def fks_det_loop (nsamp : ℕ) (values : List K) (ndiv : List ℕ)
    (subwts : List (List K)) (subsizes : Option (List ℕ)) (ncols : ℕ) :
    List ℕ → FksSt K → FksSt K
  | [], s => s
  | det :: rest, s =>
    if s.broke = true then s
    else fks_det_loop nsamp values ndiv subwts subsizes ncols rest
           (fks_det_body nsamp values ndiv subwts subsizes ncols det s)

/-- Outer while loop of find_keep_sub (compress_utils.cpp lines 161-227):
each round recomputes glob_one_norm from loc_one_norm (the single-process
reduce), breaks when it is negative, runs the determinant loop, subtracts
the round total from n_samp with unsigned wrap, and manages the last_pass
flag: an unproductive round that is not yet the last pass resets
loc_one_norm to the sum of wt_remain and forces one more round.  Each
productive round marks at least one further keep flag, so the fuel
supplied by find_keep_sub is never exhausted.  Returns (keep, wt_remain,
glob_one_norm at exit, n_samp). -/
def fks_outer (values : List K) (ndiv : List ℕ) (subwts : List (List K))
    (subsizes : Option (List ℕ)) (ncols : ℕ) :
    ℕ → List (List Bool) → List K → K → K → ℕ → Bool →
    List (List Bool) × List K × K × ℕ
  | 0, keep, wt, _, gPrev, ns, _ => (keep, wt, gPrev, ns)
  | fuel + 1, keep, wt, locN, _, ns, lp =>
    let g := locN
    if g < 0 then (keep, wt, g, ns)
    else
      let s := fks_det_loop ns values ndiv subwts subsizes ncols
                 (List.range values.length) ⟨keep, wt, locN, g, 0, false⟩
      let gs := s.sampled
      let ns2 := uwrap ns gs
      let lp2 := if lp = true ∧ 0 < gs then false else lp
      if 0 < gs then fks_outer values ndiv subwts subsizes ncols fuel
                       s.keep s.wtRemain s.locN s.g ns2 lp2
      else if lp2 = false then
        fks_outer values ndiv subwts subsizes ncols fuel
          s.keep s.wtRemain s.wtRemain.sum s.g ns2 true
      else (s.keep, s.wtRemain, s.g, ns2)

/-- Result record of find_keep_sub: the keep_idx matrix and wt_remain array
on return, the in-out n_samp on return, the returned loc_one_norm, and the
ghost field gFinal exposing glob_one_norm at exit of the threshold loop. -/
structure FksOut (K : Type) where
  keep : List (List Bool)
  wtRemain : List K
  nSamp : ℕ
  ret : K
  gFinal : K

/-- find_keep_sub from compress_utils.cpp lines 139-238 (single process):
initialize loc_one_norm to the plain sum of the values and wt_remain to a
copy of the values, run the threshold loop, then apply the final cutoff:
when glob_one_norm / n_samp is below 1e-8 force n_samp to 0 and return 0,
otherwise return the sum of wt_remain.  With n_samp = 0 the C quotient is
an infinity or NaN and n_samp, already 0, is left 0 in every sign case;
the Lean quotient by zero is 0 and takes the cutoff branch, with the same
outcome, so the embedded cutoff agrees with the source in all cases. -/
def find_keep_sub (values : List K) (ndiv : List ℕ) (subwts : List (List K))
    (keep0 : List (List Bool)) (subsizes : Option (List ℕ)) (ncols : ℕ)
    (n0 : ℕ) : FksOut K :=
  let fuel := values.length * ncols + values.length + 3
  let r := fks_outer values ndiv subwts subsizes ncols fuel
             keep0 values values.sum 0 n0 false
  let g := r.2.2.1
  let ns := r.2.2.2
  if g / (ns : K) < eps8 K then
    { keep := r.1, wtRemain := r.2.1, nSamp := 0, ret := 0, gFinal := g }
  else
    { keep := r.1, wtRemain := r.2.1, nSamp := ns, ret := r.2.1.sum, gFinal := g }

/- ----------------------------------------------------------------------
   Alias-table construction: setup_alias (compress_utils.cpp lines
   421-453). -/

/-- Pairing loop of setup_alias (compress_utils.cpp lines 440-452).  The
piles are the smaller and bigger stacks with the top at the head; each
round pops the top s of smaller and pairs it with the top b of bigger,
aliasing s to b and moving the deficit 1 - alias_probs[s] out of
alias_probs[b]; b then replaces s on the smaller stack when it fell below
1, else s is simply dropped.  Each round shrinks the total pile size by
one, which the fuel counts. -/
def setup_alias_loop :
    ℕ → List K × List ℕ × List ℕ × List ℕ → List K × List ℕ
  | 0, (ap, al, _, _) => (ap, al)
  | fuel + 1, (ap, al, smaller, bigger) =>
    match smaller, bigger with
    | s :: srest, b :: brest =>
      let al2 := al.set s b
      let apb := ap.getD b 0 + ap.getD s 0 - 1
      let ap2 := ap.set b apb
      if apb < 1 then setup_alias_loop fuel (ap2, al2, b :: srest, brest)
      else setup_alias_loop fuel (ap2, al2, srest, b :: brest)
    | _, _ => (ap, al)

/-- setup_alias from compress_utils.cpp lines 421-453: alias_probs starts
as n_states times each probability, aliases as the identity, the piles
collect (in ascending index order, so the largest index is on top) the
states below 1 and the rest, and the pairing loop runs until one pile is
empty.  Returns (alias_probs, aliases). -/
def setup_alias (probs : List K) : List K × List ℕ :=
  let n := probs.length
  let ap0 := probs.map fun p => (n : K) * p
  let al0 := List.range n
  let smaller := ((List.range n).filter fun i => decide (ap0.getD i 0 < 1)).reverse
  let bigger := ((List.range n).filter fun i => decide (¬ ap0.getD i 0 < 1)).reverse
  setup_alias_loop (smaller.length + bigger.length) (ap0, al0, smaller, bigger)

/-- Total sampling weight the alias table assigns to state i: its own
bucket accepts with probability min(alias_probs[i], 1) (a uniform draw in
the unit interval falls below alias_probs[i]), and every bucket j aliased
to i redirects with probability max(1 - alias_probs[j], 0). -/
def aliasMass (ap : List K) (al : List ℕ) (i : ℕ) : K :=
  min (ap.getD i 0) 1 +
    ((List.range al.length).map fun j =>
      if al.getD j 0 = i then max (1 - ap.getD j 0) 0 else 0).sum

/-- Residual one-norm of a (value, flag) list: the sum of magnitudes of the
entries not flagged keep-exact; the contract find_preserve establishes for
the loc_norms entry handed to sys_comp. -/
def resAbs (l : List (K × Bool)) : K :=
  (l.map fun p => if p.2 then 0 else |p.1|).sum

/-- Sum of magnitudes of the elements at the given indices (the
glob_one_norm tracked over a heap of remaining indices). -/
def idxAbsSum (values : List K) (l : List ℕ) : K :=
  (l.map fun i => |values.getD i 0|).sum

/-- Plain sum of table weights at the given indices (used for the
active-pile bookkeeping of setup_alias). -/
def idxSum (ap : List K) (l : List ℕ) : K := (l.map fun j => ap.getD j 0).sum

/-- Redirection mass already frozen into the alias table: the total of
1 - alias_probs[j] over the inactive buckets j aliased to i. -/
def redirSum (ap : List K) (al : List ℕ) (act : List ℕ) (n i : ℕ) : K :=
  ((List.range n).map fun j =>
    if al.getD j 0 = i ∧ j ∉ act then 1 - ap.getD j 0 else 0).sum

/-- Concrete DistVec state used in statements below: one internal vector,
one active slot at position 0 holding value 3, key 5 hashed to slot 0,
empty free list, min_del_idx 0 and no dense subspace. -/
def dvExA : DVState ℚ :=
  { nVecs := 1, values := fun _ p => if p = 0 then 3 else 0, currVec := 0,
    currSize := 1, nDense := 0, stack := [], nNonz := 1, minDelIdx := 0,
    hash := fun k => if k = 5 then some 0 else none,
    active := fun p => decide (p = 0), keys := fun _ => 5, noniniOccAdd := 0 }

/-- Concrete DistVec state used in statements below: like dvExA but with a
dense subspace of size 1 containing the (all-zero) slot 0. -/
def dvExB : DVState ℚ :=
  { nVecs := 1, values := fun _ _ => 0, currVec := 0,
    currSize := 1, nDense := 1, stack := [], nNonz := 1, minDelIdx := 0,
    hash := fun k => if k = 5 then some 0 else none,
    active := fun p => decide (p = 0), keys := fun _ => 5, noniniOccAdd := 0 }

/- ----------------------------------------------------------------------
   Theorems.
   ---------------------------------------------------------------------- -/

/-- C8: calling Adder add with the destination buffer already at capacity
raises the exception (embedded as none), so no element is appended and the
buffer is not grown; when the buffer is not full the element is appended
to the destination buffer, the count is incremented, capacity and the
other destinations are untouched, and the returned Bool is the decision of
whether the buffer is still not full afterwards. -/
theorem adder_add_spec (st : AdderSt K) (key : ℕ) (v : K) (proc : ℕ) (ini : Bool) :
    (st.capacity ≤ st.sendCts proc → adder_add st key v proc ini = none) ∧
    (st.sendCts proc < st.capacity →
      ∃ st2, adder_add st key v proc ini =
          some (st2, decide (st.sendCts proc + 1 < st.capacity)) ∧
        st2.sendCts proc = st.sendCts proc + 1 ∧
        st2.sendBuf proc = st.sendBuf proc ++ [(key, ini, v)] ∧
        st2.capacity = st.capacity ∧
        ∀ p, p ≠ proc → st2.sendCts p = st.sendCts p ∧ st2.sendBuf p = st.sendBuf p) := by
  constructor
  · intro h
    simp [adder_add, h]
  · intro h
    refine ⟨{ st with
        sendCts := fun p => if p = proc then st.sendCts proc + 1 else st.sendCts p,
        sendBuf := fun p => if p = proc then st.sendBuf proc ++ [(key, ini, v)]
                            else st.sendBuf p }, ?_, ?_, ?_, ?_, ?_⟩
    · simp [adder_add, not_le.mpr h]
    · simp
    · simp
    · simp
    · intro p hp
      simp [hp]

/-- Witness for C8 at concrete inputs: a full buffer (capacity 1, count 1)
raises, and a non-full buffer (capacity 2, count 1) appends. -/
theorem adder_add_spec_witness :
    (adder_add (⟨1, fun _ => 1, fun _ => []⟩ : AdderSt ℚ) 7 2 0 true = none) ∧
    (∃ st2, adder_add (⟨2, fun _ => 1, fun _ => []⟩ : AdderSt ℚ) 7 2 0 true =
        some (st2, decide ((⟨2, fun _ => 1, fun _ => []⟩ : AdderSt ℚ).sendCts 0 + 1 <
          (⟨2, fun _ => 1, fun _ => []⟩ : AdderSt ℚ).capacity)) ∧
      st2.sendCts 0 = (⟨2, fun _ => 1, fun _ => []⟩ : AdderSt ℚ).sendCts 0 + 1 ∧
      st2.sendBuf 0 = (⟨2, fun _ => 1, fun _ => []⟩ : AdderSt ℚ).sendBuf 0 ++ [(7, true, 2)] ∧
      st2.capacity = (⟨2, fun _ => 1, fun _ => []⟩ : AdderSt ℚ).capacity ∧
      ∀ p, p ≠ 0 → st2.sendCts p = (⟨2, fun _ => 1, fun _ => []⟩ : AdderSt ℚ).sendCts p ∧
        st2.sendBuf p = (⟨2, fun _ => 1, fun _ => []⟩ : AdderSt ℚ).sendBuf p) :=
  ⟨(adder_add_spec ⟨1, fun _ => 1, fun _ => []⟩ 7 2 0 true).1 (by norm_num),
   (adder_add_spec ⟨2, fun _ => 1, fun _ => []⟩ 7 2 0 true).2 (by norm_num)⟩

/-- C4: in add_elements, for an incoming (key, flag, value) triple whose key
resolves to an existing slot, the value is added into the current column
exactly when the initiator flag is set or the origin reference column of
the slot is nonzero (otherwise every stored value is unchanged, which the
first two conjuncts express since the added term is then 0), and
nonini_occ_add is incremented exactly for a non-initiator addition into an
occupied slot. -/
theorem add_elements_initiator_rule (st : DVState K) (key : ℕ) (ini : Bool)
    (v : K) (origin : ℕ) (hcv : st.currVec < st.nVecs) :
    (∀ pos, st.hash key = some pos →
      ((add_elements st [(key, ini, v)] origin).1.values st.currVec pos =
          st.values st.currVec pos +
            (if ini = true ∨ st.values origin pos ≠ 0 then v else 0)) ∧
      (∀ vi p, ¬(vi = st.currVec ∧ p = pos) →
          (add_elements st [(key, ini, v)] origin).1.values vi p = st.values vi p) ∧
      ((add_elements st [(key, ini, v)] origin).1.noniniOccAdd =
          st.noniniOccAdd +
            (if ini = false ∧ st.values origin pos ≠ 0 then 1 else 0))) ∧
    (st.hash key = none → ini = true →
      ((add_elements st [(key, ini, v)] origin).1.values st.currVec
          (st.stack.headD st.currSize) = v ∧
       (add_elements st [(key, ini, v)] origin).1.noniniOccAdd = st.noniniOccAdd)) ∧
    (st.hash key = none → ini = false →
      (add_elements st [(key, ini, v)] origin).1 = st) := by
  refine ⟨?_, ?_, ?_⟩
  · intro pos hres
    by_cases hadd : ini = true ∨ st.values origin pos ≠ 0
    · refine ⟨?_, ?_, ?_⟩
      · simp only [add_elements, add_element, hres, apply_add, if_pos hadd]
        try simp [hadd]
      · intro vi p hp
        simp only [add_elements, add_element, hres, apply_add, if_pos hadd]
        try simp [hp]
      · simp only [add_elements, add_element, hres, apply_add, if_pos hadd]
        try simp
    · refine ⟨?_, ?_, ?_⟩
      · simp only [add_elements, add_element, hres, apply_add, if_neg hadd]
        try simp [hadd]
      · intro vi p hp
        simp only [add_elements, add_element, hres, apply_add, if_neg hadd]
      · simp only [add_elements, add_element, hres, apply_add, if_neg hadd]
        try simp
  · intro hres hini
    subst hini
    cases hstk : st.stack with
    | nil =>
      constructor
      · simp [add_elements, add_element, hres, hstk, alloc_slot, init_at_pos,
          apply_add, hcv]
      · simp [add_elements, add_element, hres, hstk, alloc_slot, init_at_pos,
          apply_add]
    | cons p rest =>
      constructor
      · simp [add_elements, add_element, hres, hstk, alloc_slot, init_at_pos,
          apply_add, hcv]
      · simp [add_elements, add_element, hres, hstk, alloc_slot, init_at_pos,
          apply_add]
  · intro hres hini
    subst hini
    simp [add_elements, add_element, hres]

/-- Witness for C4 at a concrete input: a non-initiator contribution of 2
into the occupied slot 0 of dvExA (origin value 3) is accepted and counted. -/
theorem add_elements_initiator_rule_witness :
    ((add_elements dvExA [(5, false, 2)] 0).1.values dvExA.currVec 0 =
        dvExA.values dvExA.currVec 0 +
          (if (false : Bool) = true ∨ dvExA.values 0 0 ≠ 0 then 2 else 0)) ∧
    ((add_elements dvExA [(5, false, 2)] 0).1.noniniOccAdd =
        dvExA.noniniOccAdd +
          (if (false : Bool) = false ∧ dvExA.values 0 0 ≠ 0 then 1 else 0)) :=
  have h := add_elements_initiator_rule dvExA 5 false (2 : ℚ) 0 (by norm_num [dvExA])
  ⟨(h.1 0 (by norm_num [dvExA])).1, (h.1 0 (by norm_num [dvExA])).2.2⟩

/-- C5 counterexample: in the state dvExA, adding (key 5, initiator, value
-3) makes the value of slot 0 exactly zero; slot 0 is at min_del_idx (0)
and outside the dense subspace (size 0), yet when add_elements returns the
slot is still active, its hash entry is still present and the free list is
still empty: add_elements performs no deletion at all, refuting the claim
that such slots are deleted immediately within add_elements. -/
theorem add_elements_no_delete_counterexample :
    ((add_elements dvExA [(5, true, -3)] 0).1.values 0 0 = 0) ∧
    dvExA.minDelIdx = 0 ∧ dvExA.nDense = 0 ∧
    ((add_elements dvExA [(5, true, -3)] 0).1.active 0 = true) ∧
    ((add_elements dvExA [(5, true, -3)] 0).1.hash 5 = some 0) ∧
    ((add_elements dvExA [(5, true, -3)] 0).1.stack = []) ∧
    ((add_elements dvExA [(5, true, -3)] 0).1.nNonz = dvExA.nNonz) := by
  norm_num [add_elements, add_element, apply_add, dvExA]

/-- C5 amended: add_elements leaves a slot whose value became zero active
(previous theorem); the immediate-deletion contract belongs to del_at_pos,
which, called on an active slot at or above min_del_idx whose value
columns are all zero, pushes the position onto the free list, removes the
hash entry for its key, decrements n_nonz_ and deactivates the slot. -/
theorem del_at_pos_deletes (st : DVState K) (pos : ℕ)
    (hact : st.active pos = true) (hmin : st.minDelIdx ≤ pos)
    (hz : ∀ vi, vi < st.nVecs → st.values vi pos = 0) :
    del_at_pos st pos =
      { st with
        stack := pos :: st.stack,
        hash := fun k => if k = st.keys pos then none else st.hash k,
        nNonz := st.nNonz - 1,
        active := fun p => if p = pos then false else st.active p } := by
  have hz2 : ((List.range st.nVecs).all fun v => decide (st.values v pos = 0)) = true := by
    simp only [List.all_eq_true, List.mem_range, decide_eq_true_eq]
    exact hz
  simp [del_at_pos, hact, hz2, hmin]

/-- Witness for C5 amended at a concrete input: deleting slot 0 of the
state reached from dvExA after its value was cancelled to zero. -/
theorem del_at_pos_deletes_witness :
    del_at_pos (add_elements dvExA [(5, true, -3)] 0).1 0 =
      { (add_elements dvExA [(5, true, -3)] 0).1 with
        stack := 0 :: (add_elements dvExA [(5, true, -3)] 0).1.stack,
        hash := fun k =>
          if k = (add_elements dvExA [(5, true, -3)] 0).1.keys 0 then none
          else (add_elements dvExA [(5, true, -3)] 0).1.hash k,
        nNonz := (add_elements dvExA [(5, true, -3)] 0).1.nNonz - 1,
        active := fun p =>
          if p = 0 then false else (add_elements dvExA [(5, true, -3)] 0).1.active p } :=
  del_at_pos_deletes (add_elements dvExA [(5, true, -3)] 0).1 0
    (by norm_num [add_elements, add_element, apply_add, dvExA])
    (by norm_num [add_elements, add_element, apply_add, dvExA])
    (fun vi hvi => by
      have h2 : (add_elements dvExA [(5, true, -3)] 0).1.nVecs = 1 := by
        norm_num [add_elements, add_element, apply_add, dvExA]
      have h1 : vi = 0 := by omega
      subst h1
      norm_num [add_elements, add_element, apply_add, dvExA])

/-- C6 counterexample: del_at_pos checks only min_del_idx_, never n_dense_:
in the state dvExB, slot 0 lies inside the dense subspace (n_dense = 1)
and holds all-zero values, and del_at_pos 0 removes it (deactivates the
slot, deletes its hash entry and pushes it on the free list), refuting the
claim that dense-subspace slots are never removed by del_at_pos. -/
theorem del_at_pos_dense_counterexample :
    0 < dvExB.nDense ∧
    (del_at_pos dvExB 0).active 0 = false ∧
    (del_at_pos dvExB 0).hash 5 = none ∧
    (del_at_pos dvExB 0).stack = [0] := by
  norm_num [del_at_pos, dvExB]

/-- C6 amended: del_at_pos never removes a slot below min_del_idx: for a
position strictly below it, the call leaves the whole state (stored
values, hash table, free list, activity flags and counters) unchanged.
Dense-subspace positions are protected only insofar as they lie below
min_del_idx (the previous theorem shows n_dense alone gives no
protection). -/
theorem del_at_pos_below_min_frame (st : DVState K) (pos : ℕ)
    (h : pos < st.minDelIdx) : del_at_pos st pos = st := by
  unfold del_at_pos
  have hnle : ¬ st.minDelIdx ≤ pos := not_le.mpr h
  by_cases hact : st.active pos = false
  · simp [hact]
  · simp only [if_neg hact]
    simp [hnle]

/-- Witness for C6 amended at a concrete input: a state like dvExA but with
min_del_idx 1 is unchanged by del_at_pos 0. -/
theorem del_at_pos_below_min_frame_witness :
    del_at_pos { dvExA with minDelIdx := 1 } 0 = { dvExA with minDelIdx := 1 } :=
  del_at_pos_below_min_frame { dvExA with minDelIdx := 1 } 0 (by norm_num [dvExA])

/-- Helper: the sign factor of a nonzero value is 1 or -1. -/
theorem sgn_cases (v : K) (hv : v ≠ 0) : sgn v = 1 ∨ sgn v = -1 := by
  rcases lt_trichotomy v 0 with h | h | h
  · right
    simp [sgn, h, asymm h]
  · exact absurd h hv
  · left
    simp [sgn, h, asymm h]

/-- Helper: a nonzero multiple of the sign factor of a nonzero value is
nonzero. -/
theorem mul_sgn_ne_zero (d v : K) (hd : d ≠ 0) (hv : v ≠ 0) : d * sgn v ≠ 0 := by
  rcases sgn_cases v hv with h | h <;> simp [h, hd]

/-- Helper: resAbs is a sum of nonnegative terms. -/
theorem resAbs_nonneg (l : List (K × Bool)) : 0 ≤ resAbs l := by
  apply List.sum_nonneg
  intro x hx
  rcases List.mem_map.mp hx with ⟨p, -, rfl⟩
  by_cases h : p.2 <;> simp [h, abs_nonneg]

/-- Helper: resAbs of a cons. -/
theorem resAbs_cons (v : K) (b : Bool) (rest : List (K × Bool)) :
    resAbs ((v, b) :: rest) = (if b then 0 else |v|) + resAbs rest := by
  simp [resAbs]

/-- Helper: resAbs of a cons with the flag clear. -/
theorem resAbs_cons_false (v : K) (rest : List (K × Bool)) :
    resAbs ((v, false) :: rest) = |v| + resAbs rest := by
  simp [resAbs]

/-- Helper: resAbs of a cons with the flag set. -/
theorem resAbs_cons_true (v : K) (rest : List (K × Bool)) :
    resAbs ((v, true) :: rest) = resAbs rest := by
  simp [resAbs]

/-- Helper: when the residual one-norm vanishes, every unflagged entry is
zero. -/
theorem resAbs_eq_zero_res (l : List (K × Bool)) (h : resAbs l = 0) :
    ∀ p ∈ l, p.2 = false → p.1 = 0 := by
  induction l with
  | nil => intro p hp; simp at hp
  | cons q rest ih =>
    obtain ⟨v, b⟩ := q
    rw [resAbs_cons] at h
    have h1 : (0 : K) ≤ if b then 0 else |v| := by
      by_cases hb : b <;> simp [hb, abs_nonneg]
    have h2 := resAbs_nonneg (K := K) rest
    have hh : (if b then (0 : K) else |v|) = 0 ∧ resAbs rest = 0 := by
      constructor <;> linarith
    intro p hp hpf
    rcases List.mem_cons.mp hp with rfl | hp2
    · have hb : b = false := hpf
      subst hb
      have := hh.1
      simp only [Bool.false_eq_true, if_false] at this
      simpa using abs_eq_zero.mp this
    · exact ih hh.2 p hp2 hpf

/-- Pointwise description of the sys_comp scan flags and values: a flagged
entry comes out unflagged with its value unchanged, and an unflagged entry
comes out flagged exactly when its value was nonzero and was zeroed.  The
hypothesis covers the two ways the surviving-value expression is nonzero:
either sampling is off (the n_samp = 0 INFINITY path produces no
survivors) or the pivot spacing glob / m is positive. -/
theorem sys_comp_loop_pointwise (glob : K) (m : ℕ) (samp : Bool)
    (hpos : samp = true → 0 < glob / (m : K)) :
    ∀ (l : List (K × Bool)) (lb rn : K) (j : ℕ), j < l.length →
      ((l.getD j (0, false)).2 = true →
          (sys_comp_loop glob m l lb rn samp).2.1.getD j true = false ∧
          (sys_comp_loop glob m l lb rn samp).1.getD j 0 = (l.getD j (0, false)).1) ∧
      ((l.getD j (0, false)).2 = false →
          ((sys_comp_loop glob m l lb rn samp).2.1.getD j true = true ↔
            ((l.getD j (0, false)).1 ≠ 0 ∧
             (sys_comp_loop glob m l lb rn samp).1.getD j 0 = 0))) := by
  intro l
  induction l with
  | nil =>
    intro lb rn j hj
    simp at hj
  | cons p rest ih =>
    obtain ⟨v, kf⟩ := p
    intro lb rn j hj
    rcases j with _ | j
    · cases kf
      · by_cases hv : v ≠ 0
        · by_cases hc : samp = true ∧ rn < lb + |v|
          · have hne : glob / (m : K) * sgn v ≠ 0 :=
              mul_sgn_ne_zero _ _ (ne_of_gt (hpos hc.1)) hv
            simp [sys_comp_loop, hv, hc, hne]
          · simp [sys_comp_loop, hv, hc]
        · simp only [ne_eq, not_not] at hv
          subst hv
          simp [sys_comp_loop]
      · simp [sys_comp_loop]
    · have hj2 : j < rest.length := Nat.lt_of_succ_lt_succ hj
      cases kf
      · by_cases hv : v ≠ 0
        · by_cases hc : samp = true ∧ rn < lb + |v|
          · simpa [sys_comp_loop, hv, hc] using ih (lb + |v|) (rn + glob / (m : K)) j hj2
          · simpa [sys_comp_loop, hv, hc] using ih (lb + |v|) rn j hj2
        · simp only [ne_eq, not_not] at hv
          subst hv
          simpa [sys_comp_loop] using ih lb rn j hj2
      · simpa [sys_comp_loop] using ih lb rn j hj2

/-- Variant of the pointwise scan description for the case in which every
unflagged entry is zero (the residual norm vanished): the scan then takes
only the trivial branches, and the same flag description holds with no
positivity hypothesis. -/
theorem sys_comp_loop_zero_res (glob : K) (m : ℕ) (samp : Bool) :
    ∀ (l : List (K × Bool)), (∀ p ∈ l, p.2 = false → p.1 = 0) →
    ∀ (lb rn : K) (j : ℕ), j < l.length →
      ((l.getD j (0, false)).2 = true →
          (sys_comp_loop glob m l lb rn samp).2.1.getD j true = false ∧
          (sys_comp_loop glob m l lb rn samp).1.getD j 0 = (l.getD j (0, false)).1) ∧
      ((l.getD j (0, false)).2 = false →
          ((sys_comp_loop glob m l lb rn samp).2.1.getD j true = true ↔
            ((l.getD j (0, false)).1 ≠ 0 ∧
             (sys_comp_loop glob m l lb rn samp).1.getD j 0 = 0))) := by
  intro l
  induction l with
  | nil =>
    intro hz lb rn j hj
    simp at hj
  | cons p rest ih =>
    obtain ⟨v, kf⟩ := p
    intro hz lb rn j hj
    have hztail : ∀ p ∈ rest, p.2 = false → p.1 = 0 :=
      fun p hp => hz p (List.mem_cons_of_mem _ hp)
    rcases j with _ | j
    · cases kf
      · have hv : v = 0 := hz (v, false) (List.mem_cons_self _ _) rfl
        subst hv
        simp [sys_comp_loop]
      · simp [sys_comp_loop]
    · have hj2 : j < rest.length := Nat.lt_of_succ_lt_succ hj
      cases kf
      · have hv : v = 0 := hz (v, false) (List.mem_cons_self _ _) rfl
        subst hv
        simpa [sys_comp_loop] using ih hztail lb rn j hj2
      · simpa [sys_comp_loop] using ih hztail lb rn j hj2

/-- C10: when sys_comp returns, and its loc_norms input carries the
residual one-norm contract that find_preserve establishes, the keep_exact
array has inverted meaning at every index: an entry flagged keep-exact on
input has its flag cleared and its value untouched, and an unflagged entry
is flagged on output exactly when its value was nonzero and the sampler
zeroed it; this holds for every value of the random draw and every
n_samp. -/
theorem sys_comp_keep_exact_inversion [FloorRing K] (vals : List K)
    (keep : List Bool) (locNorm : K) (m : ℕ) (u : K) (j : ℕ)
    (hlen : keep.length = vals.length) (hj : j < vals.length)
    (hnorm : locNorm = resAbs (vals.zip keep)) :
    (keep.getD j false = true →
        (sys_comp vals locNorm m keep u).2.1.getD j true = false ∧
        (sys_comp vals locNorm m keep u).1.getD j 0 = vals.getD j 0) ∧
    (keep.getD j false = false →
        ((sys_comp vals locNorm m keep u).2.1.getD j true = true ↔
          (vals.getD j 0 ≠ 0 ∧ (sys_comp vals locNorm m keep u).1.getD j 0 = 0))) := by
  have hjz : j < (vals.zip keep).length := by
    rw [List.length_zip, hlen]
    simpa using hj
  have hget : (vals.zip keep).getD j (0, false) = (vals.getD j 0, keep.getD j false) := by
    rw [List.getD_eq_getElem _ _ hjz, List.getElem_zip,
        List.getD_eq_getElem _ _ hj, List.getD_eq_getElem]
  by_cases hm : 0 < m
  · by_cases hR : 0 < locNorm
    · have h := sys_comp_loop_pointwise (K := K) locNorm m true
        (fun _ => div_pos hR (by exact_mod_cast hm)) (vals.zip keep)
        0 (seed_sys locNorm m u) j hjz
      rw [hget] at h
      simpa [sys_comp, hm] using h
    · -- residual norm is zero (it cannot be negative): every unflagged
      -- value is zero and the scan takes only the trivial branches
      have hR0 : locNorm = 0 := le_antisymm (not_lt.mp hR)
        (hnorm ▸ resAbs_nonneg (vals.zip keep))
      have hz : ∀ p ∈ vals.zip keep, p.2 = false → p.1 = 0 :=
        resAbs_eq_zero_res _ (by rw [← hnorm, hR0])
      -- with a zero glob the survivor value would be zero, so use the
      -- all-residual-zero description instead
      have h := sys_comp_loop_zero_res (K := K) locNorm m true (vals.zip keep) hz
        0 (seed_sys locNorm m u) j hjz
      rw [hget] at h
      simpa [sys_comp, hm] using h
  · have h := sys_comp_loop_pointwise (K := K) locNorm m false
      (fun hf => by simp at hf) (vals.zip keep) 0 0 j hjz
    rw [hget] at h
    simpa [sys_comp, hm] using h

/-- Witness for C10 at concrete inputs: vals [2, 1, 0] with keep flags
[true, false, false], the contractual norm 1, n_samp 1, draw one half, at
index 1. -/
theorem sys_comp_keep_exact_inversion_witness :
    (([true, false, false] : List Bool).getD 1 false = true →
        (sys_comp ([2, 1, 0] : List ℚ) 1 1 [true, false, false] (1/2)).2.1.getD 1 true = false ∧
        (sys_comp ([2, 1, 0] : List ℚ) 1 1 [true, false, false] (1/2)).1.getD 1 0 =
          ([2, 1, 0] : List ℚ).getD 1 0) ∧
    (([true, false, false] : List Bool).getD 1 false = false →
        ((sys_comp ([2, 1, 0] : List ℚ) 1 1 [true, false, false] (1/2)).2.1.getD 1 true = true ↔
          (([2, 1, 0] : List ℚ).getD 1 0 ≠ 0 ∧
           (sys_comp ([2, 1, 0] : List ℚ) 1 1 [true, false, false] (1/2)).1.getD 1 0 = 0))) :=
  sys_comp_keep_exact_inversion [2, 1, 0] [true, false, false] 1 1 (1/2) 1
    (by norm_num) (by norm_num) (by norm_num [resAbs])

/-- C7: in the threshold search of both find_preserve and find_keep_sub, a
global one-norm remaining below 1e-9 at exit of the keep-exactly loop
forces the returned n_samp to 0 (for find_keep_sub the source tests
glob_one_norm / n_samp against 1e-8, which is implied: with n_samp = 0 the
result was already 0 and is left 0, and with n_samp positive the quotient
of a norm below 1e-9 is below 1e-8). -/
theorem low_norm_forces_nsamp_zero :
    (∀ (values : List K) (n0 : ℕ),
      (find_preserve values n0).gFinal < eps9 K → (find_preserve values n0).nSamp = 0) ∧
    (∀ (values : List K) (ndiv : List ℕ) (subwts : List (List K))
       (keep0 : List (List Bool)) (subsizes : Option (List ℕ)) (ncols n0 : ℕ),
      (find_keep_sub values ndiv subwts keep0 subsizes ncols n0).gFinal < eps9 K →
      (find_keep_sub values ndiv subwts keep0 subsizes ncols n0).nSamp = 0) := by
  constructor
  · intro values n0 h
    unfold find_preserve at h ⊢
    simp only [List.length_range] at h ⊢
    by_cases hc :
        (find_preserve_loop values n0 values.length
          (List.range values.length) (absSum values) 0).2.2.1 < eps9 K
    · simp [hc]
    · simp only [hc, if_false] at h
  · intro values ndiv subwts keep0 subsizes ncols n0 h
    unfold find_keep_sub at h ⊢
    set r := fks_outer values ndiv subwts subsizes ncols
      (values.length * ncols + values.length + 3) keep0 values values.sum 0 n0 false with hr
    by_cases hc : r.2.2.1 / ((r.2.2.2 : ℕ) : K) < eps8 K
    · simp [hc]
    · simp only [hc, if_false] at h
      exfalso
      apply hc
      rcases Nat.eq_zero_or_pos r.2.2.2 with h0 | h0
      · rw [h0]
        simp only [Nat.cast_zero, div_zero]
        norm_num [eps8]
      · have hns : (0 : K) < ((r.2.2.2 : ℕ) : K) := by exact_mod_cast h0
        rw [div_lt_iff hns]
        have h1 : eps9 K < eps8 K := by norm_num [eps8, eps9]
        have h2 : eps8 K ≤ ((r.2.2.2 : ℕ) : K) * eps8 K := by
          apply le_mul_of_one_le_left (by norm_num [eps8])
          exact_mod_cast h0
        linarith

/-- Witness for C7 at concrete inputs: the one-element vector holding
5e-10 with budget 1 for find_preserve (its entire norm is popped, leaving
a remaining norm of 0, below 1e-9), and the empty vector with budget 1 for
find_keep_sub (remaining norm 0). -/
theorem low_norm_forces_nsamp_zero_witness :
    (find_preserve ([1/2000000000] : List ℚ) 1).nSamp = 0 ∧
    (find_keep_sub ([] : List ℚ) [] [] [] none 1 1).nSamp = 0 :=
  ⟨(low_norm_forces_nsamp_zero (K := ℚ)).1 [1/2000000000] 1
      (by norm_num [find_preserve, find_preserve_loop, maxIdx, absSum, eps9]),
   (low_norm_forces_nsamp_zero (K := ℚ)).2 [] [] [] [] none 1 1
      (by norm_num [find_keep_sub, fks_outer, fks_det_loop, fks_det_body, fks_sub_loop,
        threshMet, uwrap, eps9, eps8, eps10])⟩

/-- Helper: the modelled heap pop fails only on the empty heap. -/
theorem maxIdx_eq_none (values : List K) (heap : List ℕ) :
    maxIdx values heap = none ↔ heap = [] := by
  cases heap with
  | nil => simp [maxIdx]
  | cons a rest =>
    have hz : ∃ z, maxIdx values (a :: rest) = some z := by
      simp only [maxIdx]
      cases maxIdx values rest with
      | none => exact ⟨a, rfl⟩
      | some k =>
        by_cases hc : |values.getD a 0| < |values.getD k 0|
        · exact ⟨k, if_pos hc⟩
        · exact ⟨a, if_neg hc⟩
    obtain ⟨z, hzz⟩ := hz
    simp [hzz]

/-- Helper: an index returned by the modelled heap pop is in the heap. -/
theorem maxIdx_mem (values : List K) :
    ∀ (heap : List ℕ) (i : ℕ), maxIdx values heap = some i → i ∈ heap := by
  intro heap
  induction heap with
  | nil => intro i h; simp [maxIdx] at h
  | cons a rest ih =>
    intro i h
    cases hr : maxIdx values rest with
    | none =>
      simp only [maxIdx, hr] at h
      simp at h
      simp [h]
    | some k =>
      simp only [maxIdx, hr] at h
      by_cases hc : |values.getD a 0| < |values.getD k 0|
      · rw [if_pos hc] at h
        have := ih k hr
        simp at h
        subst h
        exact List.mem_cons_of_mem _ this
      · rw [if_neg hc] at h
        simp at h
        simp [h]

/-- Helper: an index returned by the modelled heap pop has maximal
magnitude among the heap. -/
theorem maxIdx_is_max (values : List K) :
    ∀ (heap : List ℕ) (i : ℕ), maxIdx values heap = some i →
      ∀ j ∈ heap, |values.getD j 0| ≤ |values.getD i 0| := by
  intro heap
  induction heap with
  | nil => intro i h; simp [maxIdx] at h
  | cons a rest ih =>
    intro i h j hj
    cases hr : maxIdx values rest with
    | none =>
      simp only [maxIdx, hr] at h
      have hrest : rest = [] := (maxIdx_eq_none values rest).mp hr
      subst hrest
      simp at h hj
      subst h
      subst hj
      exact le_refl _
    | some k =>
      simp only [maxIdx, hr] at h
      rcases List.mem_cons.mp hj with rfl | hj2
      · by_cases hc : |values.getD j 0| < |values.getD k 0|
        · rw [if_pos hc] at h
          simp at h
          subst h
          exact le_of_lt hc
        · rw [if_neg hc] at h
          simp at h
          subst h
          exact le_refl _
      · have hk := ih k hr j hj2
        by_cases hc : |values.getD a 0| < |values.getD k 0|
        · rw [if_pos hc] at h
          simp at h
          subst h
          exact hk
        · rw [if_neg hc] at h
          simp at h
          subst h
          exact le_trans hk (not_lt.mp hc)

/-- Helper: structure of the threshold loop.  Provided the fuel covers the
heap, the popped list and the final heap partition the initial heap (as a
permutation), the final popped count adds the number of pops, and the
final norm is the initial norm minus the popped magnitudes. -/
theorem fp_loop_struct (values : List K) (n0 : ℕ) :
    ∀ (fuel : ℕ) (heap : List ℕ) (g : K) (popped : ℕ), heap.length ≤ fuel →
      ((find_preserve_loop values n0 fuel heap g popped).1 ++
        (find_preserve_loop values n0 fuel heap g popped).2.1).Perm heap ∧
      (find_preserve_loop values n0 fuel heap g popped).2.2.2 =
        popped + (find_preserve_loop values n0 fuel heap g popped).1.length ∧
      (find_preserve_loop values n0 fuel heap g popped).2.2.1 =
        g - idxAbsSum values (find_preserve_loop values n0 fuel heap g popped).1 := by
  intro fuel
  induction fuel with
  | zero =>
    intro heap g popped hf
    have : heap = [] := List.length_eq_zero.mp (Nat.le_zero.mp hf)
    subst this
    simp [find_preserve_loop, idxAbsSum]
  | succ f ih =>
    intro heap g popped hf
    simp only [find_preserve_loop]
    cases hm : maxIdx values heap with
    | none =>
      simp [idxAbsSum]
    | some i =>
      by_cases hc : popped < n0 ∧ g / ((n0 - popped : ℕ) : K) ≤ |values.getD i 0|
      · simp only [if_pos hc]
        have hmem := maxIdx_mem values heap i hm
        have hlen : (heap.erase i).length ≤ f := by
          rw [List.length_erase_of_mem hmem]
          omega
        obtain ⟨ih1, ih2, ih3⟩ := ih (heap.erase i) (g - |values.getD i 0|) (popped + 1) hlen
        refine ⟨?_, ?_, ?_⟩
        · exact (ih1.cons i).trans (List.perm_cons_erase hmem).symm
        · simp only [List.length_cons]
          omega
        · simp only [idxAbsSum, List.map_cons, List.sum_cons]
          rw [ih3]
          simp only [idxAbsSum]
          ring
      · simp only [if_neg hc]
        simp [idxAbsSum]

/-- Helper: the popped count of the threshold loop never exceeds the
budget n0 (given it starts within budget). -/
theorem fp_loop_popped_le (values : List K) (n0 : ℕ) :
    ∀ (fuel : ℕ) (heap : List ℕ) (g : K) (popped : ℕ), popped ≤ n0 →
      (find_preserve_loop values n0 fuel heap g popped).2.2.2 ≤ n0 := by
  intro fuel
  induction fuel with
  | zero => intro heap g popped h; simpa [find_preserve_loop] using h
  | succ f ih =>
    intro heap g popped h
    cases hm : maxIdx values heap with
    | none =>
      simp only [find_preserve_loop, hm]
      exact h
    | some i =>
      simp only [find_preserve_loop, hm]
      by_cases hc : popped < n0 ∧ g / ((n0 - popped : ℕ) : K) ≤ |values.getD i 0|
      · rw [if_pos hc]
        exact ih _ _ _ hc.1
      · rw [if_neg hc]
        exact h

/-- Helper: the final norm of the threshold loop is at most the entry
norm. -/
theorem fp_loop_g_le (values : List K) (n0 : ℕ) :
    ∀ (fuel : ℕ) (heap : List ℕ) (g : K) (popped : ℕ),
      (find_preserve_loop values n0 fuel heap g popped).2.2.1 ≤ g := by
  intro fuel
  induction fuel with
  | zero => intro heap g popped; simp [find_preserve_loop]
  | succ f ih =>
    intro heap g popped
    cases hm : maxIdx values heap with
    | none => simp [find_preserve_loop, hm]
    | some i =>
      simp only [find_preserve_loop, hm]
      by_cases hc : popped < n0 ∧ g / ((n0 - popped : ℕ) : K) ≤ |values.getD i 0|
      · rw [if_pos hc]
        calc (find_preserve_loop values n0 f (heap.erase i)
              (g - |values.getD i 0|) (popped + 1)).2.2.1
            ≤ g - |values.getD i 0| := ih _ _ _
          _ ≤ g := by
              have := abs_nonneg (values.getD i 0)
              linarith
      · rw [if_neg hc]

/-- Helper: every index popped by the threshold loop has nonzero magnitude
provided the final norm is positive (each pop satisfied its threshold test
against a norm at least the final one, with a denominator of at least 1). -/
theorem fp_loop_kept_pos (values : List K) (n0 : ℕ) :
    ∀ (fuel : ℕ) (heap : List ℕ) (g : K) (popped : ℕ),
      0 < (find_preserve_loop values n0 fuel heap g popped).2.2.1 →
      ∀ i ∈ (find_preserve_loop values n0 fuel heap g popped).1,
        0 < |values.getD i 0| := by
  intro fuel
  induction fuel with
  | zero => intro heap g popped _ i hi; simp [find_preserve_loop] at hi
  | succ f ih =>
    intro heap g popped hpos i hi
    revert hpos hi
    cases hm : maxIdx values heap with
    | none =>
      simp only [find_preserve_loop, hm]
      intro hpos hi
      simp at hi
    | some i0 =>
      simp only [find_preserve_loop, hm]
      by_cases hc : popped < n0 ∧ g / ((n0 - popped : ℕ) : K) ≤ |values.getD i0 0|
      · rw [if_pos hc]
        intro hpos hi
        simp only [List.mem_cons] at hi
        rcases hi with rfl | hi2
        · -- the popped element i0 met its threshold g / d with d at least 1
          -- and g at least the (positive) final norm
          have hg : (find_preserve_loop values n0 f (heap.erase i) (g - |values.getD i 0|)
              (popped + 1)).2.2.1 ≤ g - |values.getD i 0| := fp_loop_g_le values n0 _ _ _ _
          have hgpos : 0 < g - |values.getD i 0| := lt_of_lt_of_le hpos hg
          have habs := abs_nonneg (values.getD i 0)
          have hgq : 0 < g := by linarith
          have hd : (0 : K) < ((n0 - popped : ℕ) : K) := by
            have : 0 < n0 - popped := Nat.sub_pos_of_lt hc.1
            exact_mod_cast this
          calc (0 : K) < g / ((n0 - popped : ℕ) : K) := div_pos hgq hd
            _ ≤ |values.getD i 0| := hc.2
        · exact ih _ _ _ hpos i hi2
      · rw [if_neg hc]
        intro hpos hi
        simp at hi

/-- Helper: idxAbsSum is nonnegative. -/
theorem idxAbsSum_nonneg (values : List K) (l : List ℕ) : 0 ≤ idxAbsSum values l := by
  apply List.sum_nonneg
  intro x hx
  rcases List.mem_map.mp hx with ⟨j, -, rfl⟩
  exact abs_nonneg _

/-- Helper: a member magnitude is at most idxAbsSum. -/
theorem le_idxAbsSum (values : List K) (l : List ℕ) (i : ℕ) (hi : i ∈ l) :
    |values.getD i 0| ≤ idxAbsSum values l := by
  apply List.single_le_sum
  · intro x hx
    rcases List.mem_map.mp hx with ⟨j, -, rfl⟩
    exact abs_nonneg _
  · exact List.mem_map_of_mem _ hi

/-- Helper: splitting idxAbsSum at a member. -/
theorem idxAbsSum_erase (values : List K) (heap : List ℕ) (i : ℕ) (hi : i ∈ heap) :
    idxAbsSum values heap = |values.getD i 0| + idxAbsSum values (heap.erase i) := by
  unfold idxAbsSum
  rw [List.Perm.sum_eq ((List.perm_cons_erase hi).map _)]
  simp

/-- Helper: water-filling monotonicity of the threshold loop.  Any element
that meets the entry threshold g / (n0 - popped), has positive magnitude
and is still on the heap is eventually popped: each pop can only lower the
threshold, and the budget cannot run out before the element is popped
(the final pop of a budget-exhausting run requires the popped magnitude to
reach the whole remaining norm, leaving only zero-magnitude elements). -/
theorem fp_loop_marks (values : List K) (n0 : ℕ) :
    ∀ (fuel : ℕ) (heap : List ℕ) (g : K) (popped : ℕ) (i : ℕ),
      heap.length ≤ fuel → g = idxAbsSum values heap → i ∈ heap →
      popped < n0 → g / ((n0 - popped : ℕ) : K) ≤ |values.getD i 0| →
      0 < |values.getD i 0| →
      i ∈ (find_preserve_loop values n0 fuel heap g popped).1 := by
  intro fuel
  induction fuel with
  | zero =>
    intro heap g popped i hf hg hi _ _ _
    have : heap = [] := List.length_eq_zero.mp (Nat.le_zero.mp hf)
    subst this
    simp at hi
  | succ f ih =>
    intro heap g popped i hf hg hi hlt hth hposv
    cases hm : maxIdx values heap with
    | none =>
      have : heap = [] := (maxIdx_eq_none values heap).mp hm
      subst this
      simp at hi
    | some i0 =>
      have hmax := maxIdx_is_max values heap i0 hm i hi
      have hmem0 := maxIdx_mem values heap i0 hm
      have hcond : popped < n0 ∧ g / ((n0 - popped : ℕ) : K) ≤ |values.getD i0 0| :=
        ⟨hlt, le_trans hth hmax⟩
      simp only [find_preserve_loop, hm]
      rw [if_pos hcond]
      by_cases heq : i = i0
      · subst heq
        exact List.mem_cons_self _ _
      · apply List.mem_cons_of_mem
        have hi2 : i ∈ heap.erase i0 := (List.mem_erase_of_ne heq).mpr hi
        have hsplit : g = |values.getD i0 0| + idxAbsSum values (heap.erase i0) := by
          rw [hg]
          exact idxAbsSum_erase values heap i0 hmem0
        have hdpos : (0 : K) < ((n0 - popped : ℕ) : K) := by
          have : 0 < n0 - popped := Nat.sub_pos_of_lt hlt
          exact_mod_cast this
        have hbud : popped + 1 < n0 := by
          by_contra hb
          have hb2 : n0 - popped = 1 := by omega
          have hth0 : g ≤ |values.getD i0 0| := by
            have h2 := hcond.2
            rw [hb2] at h2
            simpa using h2
          have hrest : |values.getD i 0| ≤ idxAbsSum values (heap.erase i0) :=
            le_idxAbsSum values _ i hi2
          linarith
        have hthr2 : (g - |values.getD i0 0|) /
            ((n0 - (popped + 1) : ℕ) : K) ≤ |values.getD i 0| := by
          have hd2 : (0 : K) < ((n0 - (popped + 1) : ℕ) : K) := by
            have : 0 < n0 - (popped + 1) := Nat.sub_pos_of_lt hbud
            exact_mod_cast this
          have hcast : ((n0 - popped : ℕ) : K) = ((n0 - (popped + 1) : ℕ) : K) + 1 := by
            have h3 : n0 - popped = (n0 - (popped + 1)) + 1 := by omega
            rw [h3]
            push_cast
            ring
          rw [div_le_iff hd2]
          have h2 : g ≤ |values.getD i 0| * ((n0 - popped : ℕ) : K) := by
            have := hth
            rwa [div_le_iff hdpos] at this
          rw [hcast] at h2
          have : |values.getD i 0| ≤ |values.getD i0 0| := hmax
          nlinarith
        apply ih (heap.erase i0) (g - |values.getD i0 0|) (popped + 1) i
        · rw [List.length_erase_of_mem hmem0]
          omega
        · linarith [hsplit]
        · exact hi2
        · exact hbud
        · exact hthr2
        · exact hposv

/-- Helper: the fields of find_preserve in terms of the threshold loop
(the keep flags and ghost fields are the same in the two cutoff
branches). -/
theorem find_preserve_fields (values : List K) (n0 : ℕ) :
    (find_preserve values n0).kept =
      (find_preserve_loop values n0 values.length (List.range values.length)
        (absSum values) 0).1 ∧
    (find_preserve values n0).heapF =
      (find_preserve_loop values n0 values.length (List.range values.length)
        (absSum values) 0).2.1 ∧
    (find_preserve values n0).gFinal =
      (find_preserve_loop values n0 values.length (List.range values.length)
        (absSum values) 0).2.2.1 ∧
    (find_preserve values n0).popped =
      (find_preserve_loop values n0 values.length (List.range values.length)
        (absSum values) 0).2.2.2 ∧
    (find_preserve values n0).keep =
      (List.range values.length).map
        (fun i => decide (i ∈ (find_preserve values n0).kept)) ∧
    (find_preserve values n0).globalNorm = absSum values ∧
    (find_preserve values n0).nSamp =
      (if (find_preserve values n0).gFinal < eps9 K then 0
       else n0 - (find_preserve values n0).popped) ∧
    (find_preserve values n0).ret =
      (if (find_preserve values n0).gFinal < eps9 K then 0
       else ((List.range values.length).map
         fun i => if i ∈ (find_preserve values n0).kept then 0
                  else |values.getD i 0|).sum) := by
  unfold find_preserve
  simp only [List.length_range]
  by_cases h : (find_preserve_loop values n0 values.length (List.range values.length)
      (absSum values) 0).2.2.1 < eps9 K
  · simp [h]
  · simp [h]

/-- Helper: mapping magnitudes over the index range recovers absSum. -/
theorem idxAbsSum_range (values : List K) :
    idxAbsSum values (List.range values.length) = absSum values := by
  unfold idxAbsSum absSum
  congr 1
  apply List.ext_getElem
  · simp
  · intro j h1 h2
    simp only [List.getElem_map, List.getElem_range]
    rw [List.getD_eq_getElem values 0 (by simpa using h1)]

/-- Helper: length of the keep array of find_preserve. -/
theorem find_preserve_keep_length (values : List K) (n0 : ℕ) :
    (find_preserve values n0).keep.length = values.length := by
  rw [(find_preserve_fields values n0).2.2.2.2.1]
  simp

/-- Helper: the keep flag at an index below the length is the membership
of the index in the popped list. -/
theorem find_preserve_keep_getD (values : List K) (n0 : ℕ) (i : ℕ)
    (hi : i < values.length) :
    (find_preserve values n0).keep.getD i false =
      decide (i ∈ (find_preserve values n0).kept) := by
  rw [(find_preserve_fields values n0).2.2.2.2.1]
  rw [List.getD_eq_getElem _ _ (by simpa using hi)]
  simp

/-- Helper: a keep-flagged entry passes through the sys_comp scan with its
value unchanged, independently of the random state (the flagged branch of
the loop never consults rn_sys). -/
theorem sys_comp_loop_kept (glob : K) (m : ℕ) (samp : Bool) :
    ∀ (l : List (K × Bool)) (lb rn : K) (j : ℕ), j < l.length →
      (l.getD j (0, false)).2 = true →
      (sys_comp_loop glob m l lb rn samp).1.getD j 0 = (l.getD j (0, false)).1 := by
  intro l
  induction l with
  | nil => intro lb rn j hj; simp at hj
  | cons p rest ih =>
    obtain ⟨v, kf⟩ := p
    intro lb rn j hj hkf
    rcases j with _ | j
    · have : kf = true := hkf
      subst this
      simp [sys_comp_loop]
    · have hj2 : j < rest.length := Nat.lt_of_succ_lt_succ hj
      have hkf2 : (rest.getD j (0, false)).2 = true := hkf
      cases kf
      · by_cases hv : v ≠ 0
        · by_cases hc : samp = true ∧ rn < lb + |v|
          · simpa [sys_comp_loop, hv, hc] using ih (lb + |v|) (rn + glob / (m : K)) j hj2 hkf2
          · simpa [sys_comp_loop, hv, hc] using ih (lb + |v|) rn j hj2 hkf2
        · simp only [ne_eq, not_not] at hv
          subst hv
          simpa [sys_comp_loop] using ih lb rn j hj2 hkf2
      · simpa [sys_comp_loop] using ih lb rn j hj2 hkf2

/-- Helper: entry j of the zip of values and the find_preserve keep array. -/
theorem zip_keep_getD (values : List K) (n0 : ℕ) (j : ℕ) (hj : j < values.length) :
    (values.zip (find_preserve values n0).keep).getD j (0, false) =
      (values.getD j 0, (find_preserve values n0).keep.getD j false) := by
  have hlen : (find_preserve values n0).keep.length = values.length :=
    find_preserve_keep_length values n0
  have hjz : j < (values.zip (find_preserve values n0).keep).length := by
    rw [List.length_zip, hlen]
    simpa using hj
  rw [List.getD_eq_getElem _ _ hjz, List.getElem_zip,
      List.getD_eq_getElem _ _ hj, List.getD_eq_getElem]

/-- C3 amended: provided the global one-norm is positive and n_samp is at
least 1, every element with magnitude at least (global one-norm) / n_samp
is marked keep-exactly by find_preserve and emerges from sys_comp with its
exact original value for every value of the random draw. -/
theorem large_magnitude_kept_exact [FloorRing K] (values : List K) (n0 : ℕ)
    (i : ℕ) (hn : 1 ≤ n0) (hG : 0 < absSum values) (hi : i < values.length)
    (hmag : absSum values / (n0 : K) ≤ |values.getD i 0|) :
    (find_preserve values n0).keep.getD i false = true ∧
    (∀ u : K, (fri_compress values n0 u).1.getD i 0 = values.getD i 0) := by
  have hn0 : (0 : K) < (n0 : K) := by exact_mod_cast hn
  have hposv : 0 < |values.getD i 0| := lt_of_lt_of_le (div_pos hG hn0) hmag
  have hkept : i ∈ (find_preserve values n0).kept := by
    rw [(find_preserve_fields values n0).1]
    apply fp_loop_marks values n0 values.length (List.range values.length)
      (absSum values) 0 i
    · simp
    · exact (idxAbsSum_range values).symm
    · exact List.mem_range.mpr hi
    · exact hn
    · simpa using hmag
    · exact hposv
  have hflag : (find_preserve values n0).keep.getD i false = true := by
    rw [find_preserve_keep_getD values n0 i hi]
    simpa using hkept
  refine ⟨hflag, ?_⟩
  intro u
  have hz := zip_keep_getD values n0 i hi
  have hjz : i < (values.zip (find_preserve values n0).keep).length := by
    rw [List.length_zip, find_preserve_keep_length values n0]
    simpa using hi
  unfold fri_compress sys_comp
  by_cases hm : 0 < (find_preserve values n0).nSamp
  · rw [if_pos hm]
    rw [sys_comp_loop_kept _ _ _ _ _ _ i hjz (by rw [hz]; simpa using hflag), hz]
  · rw [if_neg hm]
    rw [sys_comp_loop_kept _ _ _ _ _ _ i hjz (by rw [hz]; simpa using hflag), hz]

/-- C3 counterexample: on the all-zero two-element vector with n_samp 1,
the element at index 1 satisfies the magnitude test (0 is at least 0 / 1)
but is not marked keep-exactly: the budget is exhausted popping the other
zero element, so the claim fails without a positivity hypothesis on the
norm. -/
theorem large_magnitude_kept_counterexample :
    absSum ([0, 0] : List ℚ) / ((1 : ℕ) : ℚ) ≤ |([0, 0] : List ℚ).getD 1 0| ∧
    (find_preserve ([0, 0] : List ℚ) 1).keep.getD 1 false = false := by
  constructor
  · norm_num [absSum]
  · norm_num [find_preserve, find_preserve_loop, maxIdx, absSum, eps9]

/-- Witness for C3 amended at concrete inputs: in the vector [3, 1] with
n_samp 2, the element 3 meets the threshold 4 / 2 and survives compression
exactly (here at draw one third). -/
theorem large_magnitude_kept_exact_witness :
    (find_preserve ([3, 1] : List ℚ) 2).keep.getD 0 false = true ∧
    (fri_compress ([3, 1] : List ℚ) 2 (1/3)).1.getD 0 0 = ([3, 1] : List ℚ).getD 0 0 :=
  have h := large_magnitude_kept_exact ([3, 1] : List ℚ) 2 0 (by norm_num)
    (by norm_num [absSum]) (by norm_num) (by norm_num [absSum])
  ⟨h.1, h.2 (1/3)⟩

/-- Helper: with the budget already exhausted the threshold loop pops
nothing. -/
theorem fp_loop_noop (values : List K) (n0 : ℕ) :
    ∀ (fuel : ℕ) (heap : List ℕ) (g : K) (popped : ℕ), ¬ popped < n0 →
      find_preserve_loop values n0 fuel heap g popped = ([], heap, g, popped) := by
  intro fuel
  cases fuel with
  | zero => intro heap g popped _; rfl
  | succ f =>
    intro heap g popped h
    cases hm : maxIdx values heap with
    | none => simp [find_preserve_loop, hm]
    | some i =>
      simp only [find_preserve_loop, hm]
      rw [if_neg]
      rintro ⟨h1, -⟩
      exact h h1

/-- Helper: if the threshold loop exhausts the whole budget (starting
strictly inside it), the final norm is exactly zero: the last pop had a
denominator of 1, so the popped magnitude absorbed the entire remaining
norm. -/
theorem fp_loop_budget (values : List K) (n0 : ℕ) :
    ∀ (fuel : ℕ) (heap : List ℕ) (g : K) (popped : ℕ),
      popped < n0 → g = idxAbsSum values heap →
      (find_preserve_loop values n0 fuel heap g popped).2.2.2 = n0 →
      (find_preserve_loop values n0 fuel heap g popped).2.2.1 = 0 := by
  intro fuel
  induction fuel with
  | zero =>
    intro heap g popped hlt hg hend
    have h2 : popped = n0 := hend
    omega
  | succ f ih =>
    intro heap g popped hlt hg hend
    cases hm : maxIdx values heap with
    | none =>
      simp only [find_preserve_loop, hm] at hend
      omega
    | some i =>
      simp only [find_preserve_loop, hm] at hend ⊢
      by_cases hc : popped < n0 ∧ g / ((n0 - popped : ℕ) : K) ≤ |values.getD i 0|
      · rw [if_pos hc] at hend ⊢
        have hmem := maxIdx_mem values heap i hm
        have hsplit : g = |values.getD i 0| + idxAbsSum values (heap.erase i) := by
          rw [hg]; exact idxAbsSum_erase values heap i hmem
        by_cases hlt2 : popped + 1 < n0
        · exact ih _ _ _ hlt2 (by linarith) hend
        · -- the final pop: the denominator was 1, the popped magnitude
          -- covers the whole norm, and the loop then stops
          have hb2 : n0 - popped = 1 := by omega
          have hth0 : g ≤ |values.getD i 0| := by
            have h2 := hc.2
            rw [hb2] at h2
            simpa using h2
          have hres0 : idxAbsSum values (heap.erase i) = 0 := by
            have hnn := idxAbsSum_nonneg values (heap.erase i)
            linarith
          have hzero : g - |values.getD i 0| = 0 := by
            rw [hsplit, hres0]
            ring
          rw [fp_loop_noop values n0 f _ _ _ (by omega)]
          exact hzero
      · rw [if_neg hc] at hend
        have h2 : popped = n0 := hend
        omega

/-- Helper: exit condition of the threshold loop: at exit either the heap
is empty, or the budget was exhausted, or every remaining element is
strictly below the final threshold. -/
theorem fp_loop_exit (values : List K) (n0 : ℕ) :
    ∀ (fuel : ℕ) (heap : List ℕ) (g : K) (popped : ℕ),
      heap.length ≤ fuel → popped ≤ n0 →
      (find_preserve_loop values n0 fuel heap g popped).2.1 = [] ∨
      (find_preserve_loop values n0 fuel heap g popped).2.2.2 = n0 ∨
      ((find_preserve_loop values n0 fuel heap g popped).2.2.2 < n0 ∧
        ∀ j ∈ (find_preserve_loop values n0 fuel heap g popped).2.1,
          |values.getD j 0| <
            (find_preserve_loop values n0 fuel heap g popped).2.2.1 /
              ((n0 - (find_preserve_loop values n0 fuel heap g popped).2.2.2 : ℕ) : K)) := by
  intro fuel
  induction fuel with
  | zero =>
    intro heap g popped hf hle
    have : heap = [] := List.length_eq_zero.mp (Nat.le_zero.mp hf)
    subst this
    left
    rfl
  | succ f ih =>
    intro heap g popped hf hle
    cases hm : maxIdx values heap with
    | none =>
      left
      simp only [find_preserve_loop, hm]
      exact (maxIdx_eq_none values heap).mp hm
    | some i =>
      simp only [find_preserve_loop, hm]
      by_cases hc : popped < n0 ∧ g / ((n0 - popped : ℕ) : K) ≤ |values.getD i 0|
      · rw [if_pos hc]
        have hmem := maxIdx_mem values heap i hm
        have hlen : (heap.erase i).length ≤ f := by
          rw [List.length_erase_of_mem hmem]
          omega
        exact ih _ _ _ hlen hc.1
      · rw [if_neg hc]
        rcases Nat.lt_or_ge popped n0 with hlt | hge
        · right; right
          refine ⟨hlt, ?_⟩
          intro j hj
          have hth : ¬ g / ((n0 - popped : ℕ) : K) ≤ |values.getD i 0| := by
            intro hth
            exact hc ⟨hlt, hth⟩
          calc |values.getD j 0| ≤ |values.getD i 0| :=
              maxIdx_is_max values heap i hm j hj
            _ < g / ((n0 - popped : ℕ) : K) := not_le.mp hth
        · right; left
          show popped = n0
          omega

/-- Helper: the kept list and final heap together are a permutation of the
index range. -/
theorem fp_perm (values : List K) (n0 : ℕ) :
    ((find_preserve values n0).kept ++ (find_preserve values n0).heapF).Perm
      (List.range values.length) := by
  have h := (fp_loop_struct values n0 values.length (List.range values.length)
    (absSum values) 0 (by simp)).1
  rw [(find_preserve_fields values n0).1, (find_preserve_fields values n0).2.1]
  exact h

/-- Helper: the kept list and final heap are disjoint and each without
duplicates. -/
theorem fp_nodup (values : List K) (n0 : ℕ) :
    (find_preserve values n0).kept.Nodup ∧ (find_preserve values n0).heapF.Nodup ∧
      ∀ i ∈ (find_preserve values n0).kept, i ∉ (find_preserve values n0).heapF := by
  have h : ((find_preserve values n0).kept ++ (find_preserve values n0).heapF).Nodup :=
    (fp_perm values n0).nodup_iff.mpr (List.nodup_range _)
  rw [List.nodup_append] at h
  exact ⟨h.1, h.2.1, fun i hi hj => h.2.2 hi hj⟩

/-- Helper: idxAbsSum over an append. -/
theorem idxAbsSum_append (values : List K) (l1 l2 : List ℕ) :
    idxAbsSum values (l1 ++ l2) = idxAbsSum values l1 + idxAbsSum values l2 := by
  simp [idxAbsSum]

/-- Helper: the final norm of find_preserve equals the total magnitude of
the elements left on the heap (exact norm tracking). -/
theorem fp_gFinal_eq_heapF (values : List K) (n0 : ℕ) :
    (find_preserve values n0).gFinal =
      idxAbsSum values (find_preserve values n0).heapF := by
  have h := (fp_loop_struct values n0 values.length (List.range values.length)
    (absSum values) 0 (by simp)).2.2
  have hperm := fp_perm values n0
  have hsum : idxAbsSum values ((find_preserve values n0).kept ++
      (find_preserve values n0).heapF) = absSum values := by
    unfold idxAbsSum
    rw [List.Perm.sum_eq (hperm.map _)]
    exact idxAbsSum_range values
  rw [idxAbsSum_append] at hsum
  rw [(find_preserve_fields values n0).2.2.1, h,
      ← (find_preserve_fields values n0).1]
  linarith

/-- Helper: the popped count of find_preserve is the length of the kept
list. -/
theorem fp_popped_eq_len (values : List K) (n0 : ℕ) :
    (find_preserve values n0).popped = (find_preserve values n0).kept.length := by
  have h := (fp_loop_struct values n0 values.length (List.range values.length)
    (absSum values) 0 (by simp)).2.1
  rw [(find_preserve_fields values n0).2.2.2.1, h, ← (find_preserve_fields values n0).1]
  simp

/-- Helper: the zip of the values with a range-mapped flag array is itself
a range-mapped list of pairs. -/
theorem zip_range_map (values : List K) (g : ℕ → Bool) :
    values.zip ((List.range values.length).map g) =
      (List.range values.length).map (fun i => (values.getD i 0, g i)) := by
  apply List.ext_getElem
  · simp
  · intro j h1 h2
    have hj : j < values.length := by simpa using h2
    rw [List.getElem_zip]
    simp only [List.getElem_map, List.getElem_range]
    rw [List.getD_eq_getElem values 0 hj]

/-- Helper: in the non-degenerate branch, the loc_one_norm returned by
find_preserve equals the final glob_one_norm of the loop. -/
theorem fp_ret_eq_gFinal (values : List K) (n0 : ℕ)
    (h : ¬ (find_preserve values n0).gFinal < eps9 K) :
    (find_preserve values n0).ret = (find_preserve values n0).gFinal := by
  have hret := (find_preserve_fields values n0).2.2.2.2.2.2.2
  rw [if_neg h] at hret
  have hperm := fp_perm values n0
  obtain ⟨-, -, hdisj⟩ := fp_nodup values n0
  rw [hret]
  have hsum : ((List.range values.length).map
      fun i => if i ∈ (find_preserve values n0).kept then 0
               else |values.getD i 0|).sum =
      (((find_preserve values n0).kept ++ (find_preserve values n0).heapF).map
      fun i => if i ∈ (find_preserve values n0).kept then 0
               else |values.getD i 0|).sum :=
    (List.Perm.sum_eq (hperm.map _)).symm
  rw [hsum, List.map_append, List.sum_append]
  have h1 : ((find_preserve values n0).kept.map
      fun i => if i ∈ (find_preserve values n0).kept then (0 : K)
               else |values.getD i 0|).sum = 0 := by
    apply List.sum_eq_zero
    intro x hx
    rcases List.mem_map.mp hx with ⟨i, hi, rfl⟩
    simp [hi]
  have h2 : ((find_preserve values n0).heapF.map
      fun i => if i ∈ (find_preserve values n0).kept then (0 : K)
               else |values.getD i 0|).sum =
      idxAbsSum values (find_preserve values n0).heapF := by
    unfold idxAbsSum
    congr 1
    apply List.map_congr_left
    intro i hi
    have : i ∉ (find_preserve values n0).kept := fun hk => hdisj i hk hi
    simp [this]
  rw [h1, h2, fp_gFinal_eq_heapF]
  ring

/-- Helper: nonzero count of a cons. -/
theorem countNZ_cons (x : K) (xs : List K) :
    countNZ (x :: xs) = (if x ≠ 0 then 1 else 0) + countNZ xs := by
  by_cases h : x ≠ 0
  · simp [countNZ, List.filter_cons, h]
    omega
  · simp [countNZ, List.filter_cons, h]

/-- Helper: splitting a countP over a second predicate. -/
theorem countP_and_split {α : Type} (P Q : α → Bool) :
    ∀ (l : List α),
      l.countP P = l.countP (fun a => P a && Q a) + l.countP (fun a => P a && !Q a) := by
  intro l
  induction l with
  | nil => simp
  | cons a rest ih =>
    cases hP : P a <;> cases hQ : Q a <;>
      simp [List.countP_cons, hP, hQ] <;> omega

/-- Helper: with sampling off (the INFINITY path) the scan zeroes every
unflagged nonzero entry, so the surviving nonzeros are exactly the flagged
nonzero entries. -/
theorem sys_comp_loop_count_nosamp (glob : K) (m : ℕ) :
    ∀ (l : List (K × Bool)) (lb rn : K),
      countNZ (sys_comp_loop glob m l lb rn false).1 =
        l.countP (fun p => p.2 && decide (p.1 ≠ 0)) := by
  intro l
  induction l with
  | nil => simp [sys_comp_loop, countNZ]
  | cons p rest ih =>
    obtain ⟨v, kf⟩ := p
    intro lb rn
    cases kf
    · by_cases hv : v ≠ 0
      · simp [sys_comp_loop, hv, countNZ_cons, List.countP_cons, ih]
      · simp only [ne_eq, not_not] at hv
        subst hv
        simp [sys_comp_loop, countNZ_cons, List.countP_cons, ih]
    · by_cases hv : v ≠ 0
      · simp [sys_comp_loop, hv, countNZ_cons, List.countP_cons, ih]
        omega
      · simp only [ne_eq, not_not] at hv
        subst hv
        simp [sys_comp_loop, countNZ_cons, List.countP_cons, ih]

/-- Helper: when every unflagged entry is zero, the scan reproduces the
value list unchanged. -/
theorem sys_comp_loop_vals_zero_res (glob : K) (m : ℕ) (samp : Bool) :
    ∀ (l : List (K × Bool)), (∀ p ∈ l, p.2 = false → p.1 = 0) →
    ∀ (lb rn : K), (sys_comp_loop glob m l lb rn samp).1 = l.map Prod.fst := by
  intro l
  induction l with
  | nil => intro hz lb rn; simp [sys_comp_loop]
  | cons p rest ih =>
    obtain ⟨v, kf⟩ := p
    intro hz lb rn
    have hztail : ∀ p ∈ rest, p.2 = false → p.1 = 0 :=
      fun p hp => hz p (List.mem_cons_of_mem _ hp)
    cases kf
    · have hv : v = 0 := hz (v, false) (List.mem_cons_self _ _) rfl
      subst hv
      simp [sys_comp_loop, ih hztail]
    · simp [sys_comp_loop, ih hztail]

/-- Helper: the residual one-norm is bounded by the residual-nonzero count
times any bound on the individual residual magnitudes. -/
theorem resAbs_le_count (d : K) (hd : 0 ≤ d) :
    ∀ (l : List (K × Bool)), (∀ p ∈ l, p.2 = false → |p.1| ≤ d) →
      resAbs l ≤ ((l.countP fun p => !p.2 && decide (p.1 ≠ 0)) : K) * d := by
  intro l
  induction l with
  | nil => simp [resAbs]
  | cons p rest ih =>
    obtain ⟨v, kf⟩ := p
    intro hb
    have hbtail : ∀ p ∈ rest, p.2 = false → |p.1| ≤ d :=
      fun p hp => hb p (List.mem_cons_of_mem _ hp)
    have htail := ih hbtail
    rw [resAbs_cons]
    cases kf
    · by_cases hv : v ≠ 0
      · have hhead : |v| ≤ d := hb (v, false) (List.mem_cons_self _ _) rfl
        have : ((((v, false) :: rest).countP fun p => !p.2 && decide (p.1 ≠ 0)) : K) =
            ((rest.countP fun p => !p.2 && decide (p.1 ≠ 0)) : K) + 1 := by
          rw [List.countP_cons]
          simp [hv]
        rw [this]
        simp only [if_false, Bool.false_eq_true]
        nlinarith
      · simp only [ne_eq, not_not] at hv
        subst hv
        have : (((0, false) :: rest : List (K × Bool)).countP
            fun p => !p.2 && decide (p.1 ≠ 0)) =
            rest.countP fun p => !p.2 && decide (p.1 ≠ 0) := by
          rw [List.countP_cons]
          simp
        rw [this]
        simpa using htail
    · have : (((v, true) :: rest : List (K × Bool)).countP
          fun p => !p.2 && decide (p.1 ≠ 0)) =
          rest.countP fun p => !p.2 && decide (p.1 ≠ 0) := by
        rw [List.countP_cons]
        simp
      rw [this]
      simpa using htail

/-- Helper: counting range members of a duplicate-free list of indices
below the range bound recovers its length. -/
theorem range_countP_mem (n : ℕ) (ks : List ℕ) (hnd : ks.Nodup)
    (hsub : ∀ i ∈ ks, i < n) :
    (List.range n).countP (fun i => decide (i ∈ ks)) = ks.length := by
  rw [List.countP_eq_length_filter]
  have hperm : ((List.range n).filter (fun i => decide (i ∈ ks))).Perm ks := by
    rw [List.perm_ext_iff_of_nodup ((List.nodup_range n).filter _) hnd]
    intro a
    simp only [List.mem_filter, List.mem_range, decide_eq_true_eq]
    constructor
    · exact fun h => h.2
    · exact fun h => ⟨hsub a h, h⟩
  exact hperm.length_eq

/-- Helper: scan step on a flagged entry. -/
theorem sys_comp_loop_cons_kept (glob : K) (m : ℕ) (samp : Bool) (v : K)
    (rest : List (K × Bool)) (lb rn : K) :
    sys_comp_loop glob m ((v, true) :: rest) lb rn samp =
      (v :: (sys_comp_loop glob m rest lb rn samp).1,
       false :: (sys_comp_loop glob m rest lb rn samp).2.1,
       |v| + (sys_comp_loop glob m rest lb rn samp).2.2) := by
  simp [sys_comp_loop]

/-- Helper: scan step on an unflagged zero entry. -/
theorem sys_comp_loop_cons_zero (glob : K) (m : ℕ) (samp : Bool)
    (rest : List (K × Bool)) (lb rn : K) :
    sys_comp_loop glob m (((0 : K), false) :: rest) lb rn samp =
      ((0 : K) :: (sys_comp_loop glob m rest lb rn samp).1,
       false :: (sys_comp_loop glob m rest lb rn samp).2.1,
       (sys_comp_loop glob m rest lb rn samp).2.2) := by
  simp [sys_comp_loop]

/-- Helper: scan step on a surviving residual entry. -/
theorem sys_comp_loop_cons_surv (glob : K) (m : ℕ) (v : K)
    (rest : List (K × Bool)) (lb rn : K) (hv : v ≠ 0) (hc : rn < lb + |v|) :
    sys_comp_loop glob m ((v, false) :: rest) lb rn true =
      (glob / (m : K) * sgn v ::
        (sys_comp_loop glob m rest (lb + |v|) (rn + glob / (m : K)) true).1,
       false :: (sys_comp_loop glob m rest (lb + |v|)
         (rn + glob / (m : K)) true).2.1,
       glob / (m : K) + (sys_comp_loop glob m rest (lb + |v|)
         (rn + glob / (m : K)) true).2.2) := by
  simp [sys_comp_loop, hv, hc]

/-- Helper: scan step on a residual entry not hit by the pivot. -/
theorem sys_comp_loop_cons_miss (glob : K) (m : ℕ) (samp : Bool) (v : K)
    (rest : List (K × Bool)) (lb rn : K) (hv : v ≠ 0)
    (hc : ¬ (samp = true ∧ rn < lb + |v|)) :
    sys_comp_loop glob m ((v, false) :: rest) lb rn samp =
      ((0 : K) :: (sys_comp_loop glob m rest (lb + |v|) rn samp).1,
       true :: (sys_comp_loop glob m rest (lb + |v|) rn samp).2.1,
       (sys_comp_loop glob m rest (lb + |v|) rn samp).2.2) := by
  simp only [sys_comp_loop, if_neg (Bool.false_ne_true), if_pos hv]
  rw [if_neg hc]

/-- Helper: pivot count of the sampling scan.  Starting from lbound at
most rn_sys, with every residual magnitude strictly below the pivot
spacing, the number of surviving nonzeros is the number of flagged
nonzeros plus a pivot count t, where the final pivot rn + t spacings is
the first to reach the residual endpoint. -/
theorem sys_comp_loop_count (glob : K) (m : ℕ)
    (hd : 0 < glob / (m : K)) :
    ∀ (l : List (K × Bool)) (lb rn : K),
      (∀ p ∈ l, p.2 = false → |p.1| < glob / (m : K)) → lb ≤ rn →
      ∃ t : ℕ,
        countNZ (sys_comp_loop glob m l lb rn true).1 =
          l.countP (fun p => p.2 && decide (p.1 ≠ 0)) + t ∧
        lb + resAbs l ≤ rn + (t : K) * (glob / (m : K)) ∧
        (t = 0 ∨ rn + ((t : K) - 1) * (glob / (m : K)) < lb + resAbs l) := by
  intro l
  induction l with
  | nil =>
    intro lb rn hres hlb
    refine ⟨0, ?_, ?_, Or.inl rfl⟩
    · simp [sys_comp_loop, countNZ]
    · simp only [resAbs, List.map_nil, List.sum_nil, add_zero, Nat.cast_zero, zero_mul]
      linarith
  | cons p rest ih =>
    obtain ⟨v, kf⟩ := p
    intro lb rn hres hlb
    have hrtail : ∀ p ∈ rest, p.2 = false → |p.1| < glob / (m : K) :=
      fun p hp => hres p (List.mem_cons_of_mem _ hp)
    cases kf
    · -- unflagged entry
      by_cases hv : v ≠ 0
      · have hvlt : |v| < glob / (m : K) :=
          hres (v, false) (List.mem_cons_self _ _) rfl
        by_cases hc : rn < lb + |v|
        · -- survivor: consume the pivot
          have hlb2 : lb + |v| ≤ rn + glob / (m : K) := by linarith
          obtain ⟨t, h1, h2, h3⟩ := ih (lb + |v|) (rn + glob / (m : K)) hrtail hlb2
          refine ⟨t + 1, ?_, ?_, ?_⟩
          · have hne : glob / (m : K) * sgn v ≠ 0 :=
              mul_sgn_ne_zero _ _ (ne_of_gt hd) hv
            rw [sys_comp_loop_cons_surv glob m v rest lb rn hv hc]
            show countNZ (glob / (m : K) * sgn v ::
              (sys_comp_loop glob m rest (lb + |v|) (rn + glob / (m : K)) true).1) = _
            rw [countNZ_cons, List.countP_cons, h1, if_pos hne]
            have hhead : (((v, false) : K × Bool).2 &&
                decide (((v, false) : K × Bool).1 ≠ 0)) = false := by simp
            rw [hhead]
            simp only [Bool.false_eq_true, if_false]
            omega
          · rw [resAbs_cons_false]
            push_cast
            have heq : lb + (|v| + resAbs rest) = lb + |v| + resAbs rest := by ring
            rw [heq]
            calc lb + |v| + resAbs rest
                ≤ rn + glob / (m : K) + (t : K) * (glob / (m : K)) := h2
              _ = rn + ((t : K) + 1) * (glob / (m : K)) := by ring
          · right
            rw [resAbs_cons_false]
            push_cast
            have heq : rn + ((t : K) + 1 - 1) * (glob / (m : K)) =
                rn + (t : K) * (glob / (m : K)) := by ring
            rw [heq]
            rcases h3 with h30 | h31
            · subst h30
              have hres0 := resAbs_nonneg (K := K) rest
              have habs := abs_nonneg v
              simp only [Nat.cast_zero, zero_mul]
              linarith
            · have heq2 : rn + glob / (m : K) + ((t : K) - 1) * (glob / (m : K)) =
                  rn + (t : K) * (glob / (m : K)) := by ring
              rw [heq2] at h31
              linarith
        · -- no pivot in this interval
          have hlb2 : lb + |v| ≤ rn := not_lt.mp hc
          obtain ⟨t, h1, h2, h3⟩ := ih (lb + |v|) rn hrtail hlb2
          refine ⟨t, ?_, ?_, ?_⟩
          · rw [sys_comp_loop_cons_miss glob m true v rest lb rn hv
              (fun hh => hc hh.2)]
            show countNZ ((0 : K) ::
              (sys_comp_loop glob m rest (lb + |v|) rn true).1) = _
            rw [countNZ_cons, List.countP_cons, h1]
            have hhead : (((v, false) : K × Bool).2 &&
                decide (((v, false) : K × Bool).1 ≠ 0)) = false := by simp
            rw [hhead]
            simp
          · rw [resAbs_cons_false]
            have heq : lb + (|v| + resAbs rest) = lb + |v| + resAbs rest := by ring
            rw [heq]
            exact h2
          · rw [resAbs_cons_false]
            have heq : lb + (|v| + resAbs rest) = lb + |v| + resAbs rest := by ring
            rw [heq]
            exact h3
      · -- zero unflagged entry: untouched
        simp only [ne_eq, not_not] at hv
        subst hv
        obtain ⟨t, h1, h2, h3⟩ := ih lb rn hrtail hlb
        refine ⟨t, ?_, ?_, ?_⟩
        · rw [sys_comp_loop_cons_zero glob m true rest lb rn]
          show countNZ ((0 : K) :: (sys_comp_loop glob m rest lb rn true).1) = _
          rw [countNZ_cons, List.countP_cons, h1]
          have hhead : ((((0 : K), false) : K × Bool).2 &&
              decide ((((0 : K), false) : K × Bool).1 ≠ 0)) = false := by simp
          rw [hhead]
          simp
        · rw [resAbs_cons_false]
          have heq : lb + (|(0 : K)| + resAbs rest) = lb + resAbs rest := by
            simp
          rw [heq]
          exact h2
        · rw [resAbs_cons_false]
          have heq : lb + (|(0 : K)| + resAbs rest) = lb + resAbs rest := by
            simp
          rw [heq]
          exact h3
    · -- flagged entry: preserved, state unchanged
      obtain ⟨t, h1, h2, h3⟩ := ih lb rn hrtail hlb
      refine ⟨t, ?_, ?_, ?_⟩
      · rw [sys_comp_loop_cons_kept glob m true v rest lb rn]
        show countNZ (v :: (sys_comp_loop glob m rest lb rn true).1) = _
        rw [countNZ_cons, List.countP_cons, h1]
        have hhead : (((v, true) : K × Bool).2 &&
            decide (((v, true) : K × Bool).1 ≠ 0)) = decide (v ≠ 0) := by simp
        rw [hhead]
        by_cases hv : v ≠ 0
        · rw [if_pos hv, if_pos (by simpa using hv)]
          omega
        · rw [if_neg hv, if_neg (by simpa using hv)]
          omega
      · rw [resAbs_cons_true]
        exact h2
      · rw [resAbs_cons_true]
        exact h3

/-- Helper: with a nonnegative seeded product the seed_sys update is just
the scaling of the draw by the pivot spacing (the floor term vanishes with
a zero lower bound, and the wrap-around correction does not fire). -/
theorem seed_sys_nonneg_eq [FloorRing K] (norm : K) (m : ℕ) (u : K)
    (h : 0 ≤ u * (norm / (m : K))) :
    seed_sys norm m u = u * (norm / (m : K)) := by
  unfold seed_sys
  simp only [zero_mul, zero_div, Int.floor_zero, Int.cast_zero, mul_zero, add_zero]
  rw [if_neg (not_lt.mpr h)]

/-- Helper: countNZ as a countP. -/
theorem countNZ_eq_countP (x : List K) :
    countNZ x = x.countP (fun v => decide (v ≠ 0)) := by
  rw [countNZ, List.countP_eq_length_filter]

/-- Helper: the residual one-norm of the zip with the find_preserve keep
array is the sum that find_preserve returns in the non-degenerate branch. -/
theorem resAbs_zip_keep (values : List K) (n0 : ℕ) :
    resAbs (values.zip (find_preserve values n0).keep) =
      ((List.range values.length).map
        fun i => if i ∈ (find_preserve values n0).kept then 0
                 else |values.getD i 0|).sum := by
  rw [(find_preserve_fields values n0).2.2.2.2.1, zip_range_map]
  unfold resAbs
  rw [List.map_map]
  congr 1
  apply List.map_congr_left
  intro i hi
  by_cases h : i ∈ (find_preserve values n0).kept <;> simp [h]

/-- Helper: every index on the kept list is below the length. -/
theorem fp_kept_lt (values : List K) (n0 : ℕ) :
    ∀ i ∈ (find_preserve values n0).kept, i < values.length := by
  intro i hi
  have := (fp_perm values n0).mem_iff.mp (List.mem_append_left _ hi)
  simpa using this

/-- Helper: an index below the length that is not kept is on the final
heap. -/
theorem fp_not_kept_mem_heapF (values : List K) (n0 : ℕ) (i : ℕ)
    (hi : i < values.length) (hk : i ∉ (find_preserve values n0).kept) :
    i ∈ (find_preserve values n0).heapF := by
  have := (fp_perm values n0).mem_iff.mpr (List.mem_range.mpr hi)
  rcases List.mem_append.mp this with h | h
  · exact absurd h hk
  · exact h

/-- Helper: the count of keep-flagged entries in the zip is the kept
length. -/
theorem countP_flag_eq_len (values : List K) (n0 : ℕ) :
    (values.zip (find_preserve values n0).keep).countP (fun p => p.2) =
      (find_preserve values n0).kept.length := by
  rw [(find_preserve_fields values n0).2.2.2.2.1, zip_range_map, List.countP_map]
  have hcomp : ((fun p : K × Bool => p.2) ∘
      fun i => (values.getD i 0, decide (i ∈ (find_preserve values n0).kept))) =
      fun i => decide (i ∈ (find_preserve values n0).kept) := rfl
  rw [hcomp]
  exact range_countP_mem values.length _ (fp_nodup values n0).1
    (fp_kept_lt values n0)

/-- C2 amended: for every random draw in the unit interval, the compressed
vector has exactly min(n_samp, nnz(original)) nonzero entries, provided
the one-norm remaining after the threshold search is either exactly zero
or at least the 1e-9 cutoff (a strictly-between remaining norm collapses
the whole residual and breaks the count). -/
theorem compressed_nonzero_count [FloorRing K] (values : List K) (n0 : ℕ)
    (u : K) (hu0 : 0 ≤ u) (hu1 : u < 1)
    (hgood : (find_preserve values n0).gFinal = 0 ∨
      eps9 K ≤ (find_preserve values n0).gFinal) :
    countNZ (fri_compress values n0 u).1 = min n0 (countNZ values) := by
  have hkeeplen := find_preserve_keep_length values n0
  have hpople : (find_preserve values n0).popped ≤ n0 := by
    rw [(find_preserve_fields values n0).2.2.2.1]
    exact fp_loop_popped_le values n0 _ _ _ _ (Nat.zero_le n0)
  have hvalsfst : (values.zip (find_preserve values n0).keep).map Prod.fst = values :=
    List.map_fst_zip _ _ (le_of_eq hkeeplen.symm)
  have hcntvals : countNZ values =
      (values.zip (find_preserve values n0).keep).countP
        (fun p => decide (p.1 ≠ 0)) := by
    conv_lhs => rw [← hvalsfst]
    rw [countNZ_eq_countP, List.countP_map]
    rfl
  -- split the nonzero count of the input over the keep flag
  have hsplit := countP_and_split (fun p : K × Bool => decide (p.1 ≠ 0))
    (fun p => p.2) (values.zip (find_preserve values n0).keep)
  -- memberships of the zip list
  have hmem : ∀ p ∈ values.zip (find_preserve values n0).keep,
      ∃ i, i < values.length ∧
        p = (values.getD i 0, decide (i ∈ (find_preserve values n0).kept)) := by
    intro p hp
    rw [(find_preserve_fields values n0).2.2.2.2.1, zip_range_map] at hp
    rcases List.mem_map.mp hp with ⟨i, hi, rfl⟩
    exact ⟨i, by simpa using hi, rfl⟩
  rcases Nat.eq_zero_or_pos n0 with hn0 | hn0
  · -- degenerate budget 0: nothing is kept and everything residual dies
    subst hn0
    have hns : (find_preserve values 0).nSamp = 0 := by
      rw [(find_preserve_fields values 0).2.2.2.2.2.2.1]
      split <;> omega
    have hkept0 : (find_preserve values 0).kept = [] := by
      have h1 := fp_popped_eq_len values 0
      have : (find_preserve values 0).kept.length = 0 := by omega
      exact List.length_eq_zero.mp this
    simp only [fri_compress, sys_comp]
    rw [hns]
    simp only [lt_irrefl, if_false]
    rw [sys_comp_loop_count_nosamp]
    rw [Nat.min_comm, Nat.min_zero]  -- hmm min 0 x = 0
    apply List.countP_eq_zero.mpr
    intro p hp
    rcases hmem p hp with ⟨i, hi, rfl⟩
    simp [hkept0]
  · rcases hgood with hg0 | hge
    · -- remaining norm exactly zero: the residual is all zero and the
      -- vector passes through unchanged
      have hres0 : ∀ p ∈ values.zip (find_preserve values n0).keep,
          p.2 = false → p.1 = 0 := by
        intro p hp hflag
        rcases hmem p hp with ⟨i, hi, rfl⟩
        simp only [decide_eq_false_iff_not] at hflag
        have hmemF := fp_not_kept_mem_heapF values n0 i hi hflag
        have hle := le_idxAbsSum values (find_preserve values n0).heapF i hmemF
        have hgF := fp_gFinal_eq_heapF values n0
        rw [hg0] at hgF
        have habs := abs_nonneg (values.getD i 0)
        have : |values.getD i 0| = 0 := le_antisymm (by linarith) habs
        simpa using abs_eq_zero.mp this
      have hns : (find_preserve values n0).nSamp = 0 := by
        rw [(find_preserve_fields values n0).2.2.2.2.2.2.1, if_pos]
        rw [hg0]
        norm_num [eps9]
      have hout : (fri_compress values n0 u).1 = values := by
        simp only [fri_compress, sys_comp]
        rw [hns]
        simp only [lt_irrefl, if_false]
        rw [sys_comp_loop_vals_zero_res _ _ _ _ hres0, hvalsfst]
      rw [hout]
      -- the nonzero count is at most the budget: every nonzero is kept
      have hcle : countNZ values ≤ n0 := by
        rw [hcntvals, hsplit]
        have hz2 : (values.zip (find_preserve values n0).keep).countP
            (fun p => decide (p.1 ≠ 0) && !p.2) = 0 := by
          apply List.countP_eq_zero.mpr
          intro p hp
          intro hcontra
          simp only [Bool.and_eq_true, decide_eq_true_eq, Bool.not_eq_true'] at hcontra
          exact hcontra.1 (hres0 p hp hcontra.2)
        rw [hz2]
        have hmono : (values.zip (find_preserve values n0).keep).countP
            (fun p => decide (p.1 ≠ 0) && p.2) ≤
            (values.zip (find_preserve values n0).keep).countP (fun p => p.2) := by
          apply List.countP_mono_left
          intro p hp h
          exact (Bool.and_elim_right h)
        rw [countP_flag_eq_len] at hmono
        have := fp_popped_eq_len values n0
        omega
      omega
    · -- remaining norm at least the cutoff: the full counting argument
      have heps : (0 : K) < eps9 K := by norm_num [eps9]
      have hnotlt : ¬ (find_preserve values n0).gFinal < eps9 K := not_lt.mpr hge
      have hpoplt : (find_preserve values n0).popped < n0 := by
        rcases Nat.lt_or_ge (find_preserve values n0).popped n0 with h | h
        · exact h
        · exfalso
          have hpe : (find_preserve values n0).popped = n0 := by omega
          have hb := fp_loop_budget values n0 values.length
            (List.range values.length) (absSum values) 0 hn0
            (idxAbsSum_range values).symm
          rw [← (find_preserve_fields values n0).2.2.2.1] at hb
          have := hb hpe
          rw [← (find_preserve_fields values n0).2.2.1] at this
          rw [this] at hge
          linarith
      have hns : (find_preserve values n0).nSamp =
          n0 - (find_preserve values n0).popped := by
        rw [(find_preserve_fields values n0).2.2.2.2.2.2.1, if_neg hnotlt]
      have hm1 : 1 ≤ (find_preserve values n0).nSamp := by omega
      have hret : (find_preserve values n0).ret = (find_preserve values n0).gFinal :=
        fp_ret_eq_gFinal values n0 hnotlt
      have hretpos : 0 < (find_preserve values n0).ret := by
        rw [hret]; linarith
      have hmK : (0 : K) < ((find_preserve values n0).nSamp : K) := by
        exact_mod_cast hm1
      have hD : 0 < (find_preserve values n0).ret /
          ((find_preserve values n0).nSamp : K) := div_pos hretpos hmK
      -- residual magnitudes are strictly below the pivot spacing
      have hresb : ∀ p ∈ values.zip (find_preserve values n0).keep,
          p.2 = false → |p.1| < (find_preserve values n0).ret /
            ((find_preserve values n0).nSamp : K) := by
        intro p hp hflag
        rcases hmem p hp with ⟨i, hi, rfl⟩
        simp only [decide_eq_false_iff_not] at hflag
        have hmemF := fp_not_kept_mem_heapF values n0 i hi hflag
        have hexit := fp_loop_exit values n0 values.length
          (List.range values.length) (absSum values) 0 (by simp) (Nat.zero_le n0)
        rw [← (find_preserve_fields values n0).2.1,
            ← (find_preserve_fields values n0).2.2.1,
            ← (find_preserve_fields values n0).2.2.2.1] at hexit
        rcases hexit with hempty | hfull | ⟨-, hbound⟩
        · rw [hempty] at hmemF
          simp at hmemF
        · omega
        · have := hbound i hmemF
          rw [hret, hns]
          simpa using this
      -- pivot count: exactly nSamp pivots land
      have hrn := seed_sys_nonneg_eq (find_preserve values n0).ret
        (find_preserve values n0).nSamp u (mul_nonneg hu0 (le_of_lt hD))
      obtain ⟨t, hcnt, hub, hlo⟩ := sys_comp_loop_count
        (find_preserve values n0).ret (find_preserve values n0).nSamp hD
        (values.zip (find_preserve values n0).keep) 0
        (u * ((find_preserve values n0).ret / ((find_preserve values n0).nSamp : K)))
        hresb (by positivity)
      -- the residual norm is exactly nSamp spacings
      have hRm : resAbs (values.zip (find_preserve values n0).keep) =
          ((find_preserve values n0).nSamp : K) *
            ((find_preserve values n0).ret / ((find_preserve values n0).nSamp : K)) := by
        rw [resAbs_zip_keep]
        rw [mul_div_cancel₀ _ (ne_of_gt hmK)]
        have hretacc := (find_preserve_fields values n0).2.2.2.2.2.2.2
        rw [if_neg hnotlt] at hretacc
        exact hretacc.symm
      have ht : t = (find_preserve values n0).nSamp := by
        set D := (find_preserve values n0).ret /
          ((find_preserve values n0).nSamp : K) with hDdef
        set ms := (find_preserve values n0).nSamp with hmsdef
        rw [hRm] at hub hlo
        have hle1 : ms ≤ t := by
          have h2 : (ms : K) * D ≤ (u + (t : K)) * D := by
            have e : (u + (t : K)) * D = u * D + (t : K) * D := by ring
            rw [e]
            linarith [hub]
          have h3 : (ms : K) ≤ u + (t : K) := (mul_le_mul_right hD).mp h2
          have h4 : (ms : K) < (t : K) + 1 := by linarith
          have h5 : ms < t + 1 := by exact_mod_cast h4
          omega
        rcases hlo with h0 | hlow
        · subst h0
          -- zero pivots is impossible: the residual norm is positive
          exfalso
          have h2 : (ms : K) * D ≤ u * D := by
            have := hub
            simp only [Nat.cast_zero, zero_mul, add_zero, zero_add] at this
            linarith
          have h3 : (ms : K) ≤ u := (mul_le_mul_right hD).mp h2
          have h4 : (ms : K) < 1 := lt_of_le_of_lt h3 hu1
          have h5 : ms < 1 := by exact_mod_cast h4
          omega
        · have h5 : (u + ((t : K) - 1)) * D < (ms : K) * D := by
            have e : (u + ((t : K) - 1)) * D = u * D + ((t : K) - 1) * D := by ring
            rw [e]
            linarith [hlow]
          have h6 : u + ((t : K) - 1) < (ms : K) := (mul_lt_mul_right hD).mp h5
          have h7 : (t : K) < (ms : K) + 1 := by linarith
          have h8 : t < ms + 1 := by exact_mod_cast h7
          omega
      -- every kept entry is nonzero
      have hkeptnz : ∀ p ∈ values.zip (find_preserve values n0).keep,
          p.2 = true → p.1 ≠ 0 := by
        intro p hp hflag
        rcases hmem p hp with ⟨i, hi, rfl⟩
        simp only [decide_eq_true_eq] at hflag
        have hpos2 : 0 < (find_preserve values n0).gFinal := by linarith
        have := fp_loop_kept_pos values n0 values.length
          (List.range values.length) (absSum values) 0
          (by rw [← (find_preserve_fields values n0).2.2.1]; exact hpos2) i
          (by rw [← (find_preserve_fields values n0).1]; exact hflag)
        intro hzero
        have hzero2 : values.getD i 0 = 0 := hzero
        rw [hzero2] at this
        simp at this
      -- assemble the output count
      have hcntkept : (values.zip (find_preserve values n0).keep).countP
          (fun p => p.2 && decide (p.1 ≠ 0)) =
          (find_preserve values n0).kept.length := by
        rw [← countP_flag_eq_len values n0]
        apply List.countP_congr
        intro p hp
        cases hflag : p.2
        · simp
        · simp only [Bool.true_and]
          simp [hkeptnz p hp hflag]
      have hout : countNZ (fri_compress values n0 u).1 = n0 := by
        simp only [fri_compress, sys_comp]
        rw [if_pos (by omega : 0 < (find_preserve values n0).nSamp)]
        rw [hrn, hcnt, hcntkept, ht]
        have := fp_popped_eq_len values n0
        omega
      rw [hout]
      -- the input has at least n0 nonzeros
      have hcge : n0 ≤ countNZ values := by
        rw [hcntvals, hsplit]
        have hc1 : (values.zip (find_preserve values n0).keep).countP
            (fun p => decide (p.1 ≠ 0) && p.2) =
            (find_preserve values n0).kept.length := by
          rw [← hcntkept]
          apply List.countP_congr
          intro p hp
          cases hflag : p.2 <;> cases hz : decide (p.1 ≠ 0) <;> simp [hflag, hz]
        have hc2 : (find_preserve values n0).nSamp ≤
            (values.zip (find_preserve values n0).keep).countP
              (fun p => decide (p.1 ≠ 0) && !p.2) := by
          have hb := resAbs_le_count
            ((find_preserve values n0).ret / ((find_preserve values n0).nSamp : K))
            (le_of_lt hD) (values.zip (find_preserve values n0).keep)
            (fun p hp hf => le_of_lt (hresb p hp hf))
          rw [hRm] at hb
          have hcc : (values.zip (find_preserve values n0).keep).countP
              (fun p => !p.2 && decide (p.1 ≠ 0)) =
              (values.zip (find_preserve values n0).keep).countP
              (fun p => decide (p.1 ≠ 0) && !p.2) := by
            apply List.countP_congr
            intro p hp
            cases hflag : p.2 <;> cases hz : decide (p.1 ≠ 0) <;> simp [hflag, hz]
          rw [hcc] at hb
          set c := (values.zip (find_preserve values n0).keep).countP
            (fun p => decide (p.1 ≠ 0) && !p.2)
          by_contra hcon
          have hlt2 : c < (find_preserve values n0).nSamp := by omega
          have hltK : (c : K) < ((find_preserve values n0).nSamp : K) := by
            exact_mod_cast hlt2
          have := (mul_lt_mul_right hD).mpr hltK
          linarith
        have := fp_popped_eq_len values n0
        omega
      omega

/-- C2 counterexample: the two-element vector (3 / 2 to the 32,
1 / 2 to the 32) has one-norm 2 to the -30, which is positive but below
the 1e-9 cutoff, so with budget 1 find_preserve pops nothing, n_samp is
forced to 0 and the whole vector is zeroed: the compressed vector has 0
nonzeros instead of min(1, 2) = 1. -/
theorem compressed_nonzero_count_counterexample :
    countNZ (fri_compress ([3/4294967296, 1/4294967296] : List ℚ) 1 (1/2)).1 = 0 ∧
    min 1 (countNZ ([3/4294967296, 1/4294967296] : List ℚ)) = 1 := by
  have hcomp : (fri_compress ([3/4294967296, 1/4294967296] : List ℚ) 1 (1/2)).1 =
      [0, 0] := by
    norm_num [fri_compress, find_preserve, find_preserve_loop, maxIdx, absSum,
      eps9, sys_comp, sys_comp_loop, seed_sys, abs_of_pos]
  constructor
  · rw [hcomp]
    norm_num [countNZ]
  · norm_num [countNZ]

/-- Witness for C2 amended at concrete inputs: the vector [2, 1] with
budget 1 and draw one half (remaining norm 3, above the cutoff). -/
theorem compressed_nonzero_count_witness :
    countNZ (fri_compress ([2, 1] : List ℚ) 1 (1/2)).1 =
      min 1 (countNZ ([2, 1] : List ℚ)) :=
  compressed_nonzero_count [2, 1] 1 (1/2) (by norm_num) (by norm_num)
    (Or.inr (by norm_num [find_preserve, find_preserve_loop, maxIdx, absSum, eps9]))


/- ----------------------------------------------------------------------
   C9: the alias-table marginal identity for setup_alias. -/

/-- Helper getD/set lemma: reading back the set position. -/
theorem getD_set_self {α : Type} (l : List α) (i : ℕ) (v d : α) (h : i < l.length) :
    (l.set i v).getD i d = v := by
  simp [List.getD_eq_getElem?_getD, List.getElem?_set, h]

/-- Helper getD/set lemma: reading any other position. -/
theorem getD_set_ne {α : Type} (l : List α) {i j : ℕ} (v d : α) (h : i ≠ j) :
    (l.set i v).getD j d = l.getD j d := by
  simp [List.getD_eq_getElem?_getD, List.getElem?_set_ne h]

theorem idxSum_cons (ap : List K) (j : ℕ) (l : List ℕ) :
    idxSum ap (j :: l) = ap.getD j 0 + idxSum ap l := by
  simp [idxSum]

theorem idxSum_append2 (ap : List K) (l1 l2 : List ℕ) :
    idxSum ap (l1 ++ l2) = idxSum ap l1 + idxSum ap l2 := by
  simp [idxSum]

theorem idxSum_set_not_mem (ap : List K) (b : ℕ) (v : K) (l : List ℕ) (hb : b ∉ l) :
    idxSum (ap.set b v) l = idxSum ap l := by
  unfold idxSum
  refine congrArg List.sum (List.map_congr_left ?_)
  intro j hj
  exact getD_set_ne _ _ _ (by rintro rfl; exact hb hj)

/-- A list of elements all at most one sums to at most its length. -/
theorem sum_le_len (l : List K) (h : ∀ x ∈ l, x ≤ 1) : l.sum ≤ (l.length : K) := by
  induction l with
  | nil => simp
  | cons a t ih =>
    have h1 : a ≤ 1 := h a (List.mem_cons_self a t)
    have h2 := ih fun x hx => h x (List.mem_cons_of_mem a hx)
    simp only [List.sum_cons, List.length_cons]
    push_cast
    linarith

/-- A nonempty list of elements all strictly below one sums to strictly
less than its length. -/
theorem sum_lt_len (l : List K) (h : ∀ x ∈ l, x < 1) (hne : l ≠ []) :
    l.sum < (l.length : K) := by
  cases l with
  | nil => exact absurd rfl hne
  | cons a t =>
    have h1 : a < 1 := h a (List.mem_cons_self a t)
    have h2 := sum_le_len t fun x hx => le_of_lt (h x (List.mem_cons_of_mem a hx))
    simp only [List.sum_cons, List.length_cons]
    push_cast
    linarith

/-- A list of elements all at least one sums to at least its length. -/
theorem len_le_sum (l : List K) (h : ∀ x ∈ l, 1 ≤ x) : (l.length : K) ≤ l.sum := by
  induction l with
  | nil => simp
  | cons a t ih =>
    have h1 : 1 ≤ a := h a (List.mem_cons_self a t)
    have h2 := ih fun x hx => h x (List.mem_cons_of_mem a hx)
    simp only [List.sum_cons, List.length_cons]
    push_cast
    linarith

/-- If every element is at least one and the sum equals the length, each
element is exactly one. -/
theorem sum_eq_len_all_one (l : List K) (h : ∀ x ∈ l, 1 ≤ x)
    (he : l.sum = (l.length : K)) : ∀ x ∈ l, x = 1 := by
  induction l with
  | nil => intro x hx; exact absurd hx (List.not_mem_nil x)
  | cons a t ih =>
    have h1 : 1 ≤ a := h a (List.mem_cons_self a t)
    have h2 := len_le_sum t fun x hx => h x (List.mem_cons_of_mem a hx)
    have he2 : a + t.sum = (t.length : K) + 1 := by
      simpa [List.sum_cons, List.length_cons, add_comm] using he
    have ha : a = 1 := le_antisymm (by linarith) h1
    have ht : t.sum = (t.length : K) := by linarith
    intro x hx
    rcases List.mem_cons.mp hx with rfl | hx
    · exact ha
    · exact ih (fun y hy => h y (List.mem_cons_of_mem a hy)) ht x hx

/-- Sums of maps over List.range are Finset.range sums. -/
theorem range_map_sum_finset (n : ℕ) (f : ℕ → K) :
    ((List.range n).map f).sum = ∑ j ∈ Finset.range n, f j := rfl

/-- Updating a single position of the summand shifts a range sum by the
difference at that position. -/
theorem range_sum_update (n s : ℕ) (hs : s < n) (f : ℕ → K) (c : K) :
    ((List.range n).map fun j => if j = s then c else f j).sum
      = c - f s + ((List.range n).map f).sum := by
  have hupd : (fun j => if j = s then c else f j) = Function.update f s c := by
    funext j
    rw [Function.update_apply]
  rw [range_map_sum_finset, range_map_sum_finset, hupd,
    Finset.sum_update_of_mem (Finset.mem_range.mpr hs),
    Finset.sum_eq_sum_diff_singleton_add (Finset.mem_range.mpr hs) f]
  ring

/-- When the smaller pile is exhausted the table is final: every active
(bigger-pile) state has weight exactly one, so the marginal mass splits
into the own-bucket term and the finalized redirections. -/
theorem alias_pile_base (ap : List K) (al : List ℕ) (bigger : List ℕ)
    (hb1 : ∀ j ∈ bigger, ap.getD j 0 = 1)
    (hinact : ∀ j, j < al.length → j ∉ bigger → ap.getD j 0 ≤ 1)
    (i : ℕ) :
    aliasMass ap al i
      = (if i ∈ bigger then ap.getD i 0 else min (ap.getD i 0) 1)
        + redirSum ap al bigger al.length i := by
  have hown : min (ap.getD i 0) 1
      = (if i ∈ bigger then ap.getD i 0 else min (ap.getD i 0) 1) := by
    by_cases hib : i ∈ bigger
    · rw [if_pos hib, hb1 i hib]
      exact min_self 1
    · rw [if_neg hib]
  unfold aliasMass redirSum
  rw [← hown]
  congr 1
  refine congrArg List.sum (List.map_congr_left ?_)
  intro j hj
  have hjn : j < al.length := List.mem_range.mp hj
  by_cases hja : j ∈ bigger
  · rw [hb1 j hja]
    by_cases he : al.getD j 0 = i
    · rw [if_pos he, if_neg fun h => h.2 hja]
      simp
    · rw [if_neg he, if_neg fun h => he h.1]
  · have hle := hinact j hjn hja
    by_cases he : al.getD j 0 = i
    · rw [if_pos he, if_pos ⟨he, hja⟩, max_eq_left (by linarith)]
    · rw [if_neg he, if_neg fun h => he h.1]

/-- Invariant induction for the setup_alias pairing loop: given the pile
invariants (disjoint nodup piles inside bounds, smaller-pile weights below
one, bigger-pile weights at least one, frozen weights at most one, active
weights summing to the active count), the marginal mass of the final table
at any state equals its current own-bucket mass plus the already-finalized
redirections. -/
theorem setup_alias_loop_mass (fuel : ℕ) :
    ∀ (ap : List K) (al : List ℕ) (smaller bigger : List ℕ),
    smaller.length + bigger.length ≤ fuel →
    ap.length = al.length →
    (∀ j ∈ smaller ++ bigger, j < al.length) →
    (smaller ++ bigger).Nodup →
    (∀ j ∈ smaller, ap.getD j 0 < 1) →
    (∀ j ∈ bigger, 1 ≤ ap.getD j 0) →
    (∀ j, j < al.length → j ∉ smaller ++ bigger → ap.getD j 0 ≤ 1) →
    idxSum ap (smaller ++ bigger) = ((smaller ++ bigger).length : K) →
    ∀ i,
    aliasMass (setup_alias_loop fuel (ap, al, smaller, bigger)).1
        (setup_alias_loop fuel (ap, al, smaller, bigger)).2 i
      = (if i ∈ smaller ++ bigger then ap.getD i 0 else min (ap.getD i 0) 1)
        + redirSum ap al (smaller ++ bigger) al.length i := by
  induction fuel with
  | zero =>
    intro ap al smaller bigger hfuel hlen hmem hnd hsm hbg hinact hsum i
    have hs0 : smaller = [] := List.eq_nil_of_length_eq_zero (by omega)
    have hb0 : bigger = [] := List.eq_nil_of_length_eq_zero (by omega)
    subst hs0; subst hb0
    simp only [setup_alias_loop, List.nil_append]
    exact alias_pile_base ap al [] (fun j hj => absurd hj (List.not_mem_nil j))
      (fun j hj _ => hinact j hj (by simp)) i
  | succ fuel ih =>
    intro ap al smaller bigger hfuel hlen hmem hnd hsm hbg hinact hsum i
    rcases smaller with _ | ⟨s, srest⟩
    · rcases bigger with _ | ⟨b, brest⟩
      · simp only [setup_alias_loop, List.nil_append]
        exact alias_pile_base ap al [] (fun j hj => absurd hj (List.not_mem_nil j))
          (fun j hj _ => hinact j hj (by simp)) i
      · -- all active bigger weights are exactly one
        have hb1 : ∀ j ∈ b :: brest, ap.getD j 0 = 1 := by
          have hall := sum_eq_len_all_one ((b :: brest).map fun j => ap.getD j 0)
            (fun x hx => by
              rcases List.mem_map.mp hx with ⟨j, hj, rfl⟩
              exact hbg j hj)
            (by
              have := hsum
              simp only [List.nil_append] at this
              simpa [idxSum, List.length_map] using this)
          intro j hj
          exact hall _ (List.mem_map.mpr ⟨j, hj, rfl⟩)
        simp only [setup_alias_loop, List.nil_append]
        exact alias_pile_base ap al (b :: brest) hb1
          (fun j hj hnj => hinact j hj (by simpa using hnj)) i
    · rcases bigger with _ | ⟨b, brest⟩
      · exfalso
        have hlt := sum_lt_len ((s :: srest).map fun j => ap.getD j 0)
          (fun x hx => by
            rcases List.mem_map.mp hx with ⟨j, hj, rfl⟩
            exact hsm j hj)
          (by simp)
        have hs2 : idxSum ap (s :: srest) = (((s :: srest).length : ℕ) : K) := by
          simpa [List.append_nil] using hsum
        rw [idxSum] at hs2
        rw [hs2] at hlt
        simp only [List.length_map] at hlt
        exact absurd hlt (lt_irrefl _)
      · -- the inductive step: pop s from smaller, pair with b
        have hs_mem : s ∈ (s :: srest) ++ b :: brest := by simp
        have hb_mem : b ∈ (s :: srest) ++ b :: brest := by simp
        have hsn : s < al.length := hmem s hs_mem
        have hbn : b < al.length := hmem b hb_mem
        have hsap : s < ap.length := by rw [hlen]; exact hsn
        have hbap : b < ap.length := by rw [hlen]; exact hbn
        have hnd0 : ((s :: srest) ++ b :: brest) = s :: (srest ++ b :: brest) := rfl
        rw [hnd0] at hnd
        have hs_not : s ∉ srest ++ b :: brest := (List.nodup_cons.mp hnd).1
        have hnd2 : (srest ++ b :: brest).Nodup := (List.nodup_cons.mp hnd).2
        have hs1 : s ∉ srest := fun h => hs_not (List.mem_append_left _ h)
        have hsb : s ≠ b := fun h => hs_not (List.mem_append_right _ (by rw [h]; simp))
        have hs3 : s ∉ brest := fun h =>
          hs_not (List.mem_append_right _ (List.mem_cons_of_mem b h))
        have hdisj := List.disjoint_of_nodup_append hnd2
        have hbsrest : b ∉ srest := fun h => hdisj h (List.mem_cons_self b brest)
        have hbbrest : b ∉ brest :=
          (List.nodup_cons.mp (List.Nodup.of_append_right hnd2)).1
        -- abbreviations for the updated tables
        set apb : K := ap.getD b 0 + ap.getD s 0 - 1 with happb
        have hal2s : (al.set s b).getD s 0 = b := getD_set_self al s b 0 hsn
        have hal2j : ∀ j, j ≠ s → (al.set s b).getD j 0 = al.getD j 0 :=
          fun j hj => getD_set_ne al b 0 fun h => hj h.symm
        have hap2b : (ap.set b apb).getD b 0 = apb := getD_set_self ap b apb 0 hbap
        have hap2j : ∀ j, j ≠ b → (ap.set b apb).getD j 0 = ap.getD j 0 :=
          fun j hj => getD_set_ne ap apb 0 fun h => hj h.symm
        have hal2len : (al.set s b).length = al.length := List.length_set al s b
        have hap2len : (ap.set b apb).length = ap.length := List.length_set ap b apb
        -- the old active sum, split out
        have hsum_split : ap.getD s 0 + (idxSum ap srest + (ap.getD b 0 + idxSum ap brest))
            = ((srest.length : K) + (brest.length : K)) + 2 := by
          have := hsum
          rw [hnd0] at this
          rw [idxSum_cons, idxSum_append2, idxSum_cons] at this
          rw [this]
          push_cast
          simp only [List.length_cons, List.length_append]
          push_cast
          ring
        -- shared right-hand-side transport: any new active list with the
        -- membership of the old one minus s gives the same RHS value
        have hRHS : ∀ (act2 : List ℕ),
            (∀ j, j ∈ act2 ↔ (j ∈ (s :: srest) ++ b :: brest ∧ j ≠ s)) →
            (if i ∈ act2 then (ap.set b apb).getD i 0
              else min ((ap.set b apb).getD i 0) 1)
              + redirSum (ap.set b apb) (al.set s b) act2 al.length i
            = (if i ∈ (s :: srest) ++ b :: brest then ap.getD i 0
                else min (ap.getD i 0) 1)
              + redirSum ap al ((s :: srest) ++ b :: brest) al.length i := by
          intro act2 hact2
          have hs_nact2 : s ∉ act2 := fun h => ((hact2 s).mp h).2 rfl
          have hb_act2 : b ∈ act2 := (hact2 b).mpr ⟨hb_mem, fun h => hsb h.symm⟩
          have hfun : (fun j => if (al.set s b).getD j 0 = i ∧ j ∉ act2
                then 1 - (ap.set b apb).getD j 0 else 0)
              = fun j => if j = s then (if b = i then 1 - ap.getD s 0 else 0)
                  else (if al.getD j 0 = i ∧ j ∉ (s :: srest) ++ b :: brest
                    then 1 - ap.getD j 0 else 0) := by
            funext j
            by_cases hjs : j = s
            · subst hjs
              rw [if_pos rfl, hal2s]
              by_cases hbi : b = i
              · rw [if_pos ⟨hbi, hs_nact2⟩, if_pos hbi, hap2j _ hsb]
              · rw [if_neg fun h => hbi h.1, if_neg hbi]
            · rw [if_neg hjs]
              have hal := hal2j j hjs
              have hiff : (j ∉ act2) ↔ (j ∉ (s :: srest) ++ b :: brest) := by
                constructor
                · intro h hm; exact h ((hact2 j).mpr ⟨hm, hjs⟩)
                · intro h hm; exact h ((hact2 j).mp hm).1
              by_cases hcond : al.getD j 0 = i ∧ j ∉ (s :: srest) ++ b :: brest
              · have hjb : j ≠ b := fun h => hcond.2 (h ▸ hb_mem)
                rw [if_pos ⟨hal.trans hcond.1, hiff.mpr hcond.2⟩, if_pos hcond,
                  hap2j _ hjb]
              · rw [if_neg, if_neg hcond]
                intro h
                exact hcond ⟨hal.symm.trans h.1, hiff.mp h.2⟩
          have hredir : redirSum (ap.set b apb) (al.set s b) act2 al.length i
              = (if b = i then 1 - ap.getD s 0 else 0)
                + redirSum ap al ((s :: srest) ++ b :: brest) al.length i := by
            unfold redirSum
            rw [hfun]
            rw [range_sum_update al.length s hsn
              (fun j => if al.getD j 0 = i ∧ j ∉ (s :: srest) ++ b :: brest
                then 1 - ap.getD j 0 else 0)
              (if b = i then 1 - ap.getD s 0 else 0)]
            have hfs : (if al.getD s 0 = i ∧ s ∉ (s :: srest) ++ b :: brest
                then (1 : K) - ap.getD s 0 else 0) = 0 :=
              if_neg fun h => h.2 hs_mem
            simp only [hfs]
            ring
          rw [hredir]
          by_cases his : i = s
          · have h1 : i ∉ act2 := fun h => ((hact2 i).mp h).2 his
            have h2 : i ∈ (s :: srest) ++ b :: brest := by rw [his]; exact hs_mem
            have h3 : (if b = i then (1 : K) - ap.getD s 0 else 0) = 0 :=
              if_neg fun h => hsb (his.symm.trans h.symm)
            have h4 : (ap.set b apb).getD i 0 = ap.getD i 0 :=
              hap2j i fun h => hsb (his.symm.trans h)
            have h5 : ap.getD i 0 < 1 := by
              rw [his]
              exact hsm s (List.mem_cons_self s srest)
            rw [if_neg h1, if_pos h2, h3, h4, min_eq_left (le_of_lt h5), his]
            ring
          · by_cases hib : i = b
            · have h1 : i ∈ act2 :=
                (hact2 i).mpr ⟨by rw [hib]; exact hb_mem, his⟩
              have h2 : i ∈ (s :: srest) ++ b :: brest := by rw [hib]; exact hb_mem
              have h3 : (if b = i then (1 : K) - ap.getD s 0 else 0)
                  = 1 - ap.getD s 0 := if_pos hib.symm
              have h4 : (ap.set b apb).getD i 0 = apb := by rw [hib]; exact hap2b
              rw [if_pos h1, if_pos h2, h3, h4, happb, hib]
              ring
            · have hc0 : (if b = i then (1 : K) - ap.getD s 0 else 0) = 0 :=
                if_neg fun h => hib h.symm
              have hapi := hap2j i fun h => hib h
              have hiiff : i ∈ act2 ↔ i ∈ (s :: srest) ++ b :: brest := by
                constructor
                · intro h; exact ((hact2 i).mp h).1
                · intro h; exact (hact2 i).mpr ⟨h, his⟩
              rw [hc0, hapi]
              by_cases hia : i ∈ (s :: srest) ++ b :: brest
              · rw [if_pos (hiiff.mpr hia), if_pos hia]
                ring
              · rw [if_neg fun h => hia (hiiff.mp h), if_neg hia]
                ring
        -- unfold one loop round
        simp only [setup_alias_loop]
        by_cases hlt : apb < 1
        · rw [if_pos hlt]
          have hmem_then : ∀ j, j ∈ (b :: srest) ++ brest
              ↔ (j ∈ (s :: srest) ++ b :: brest ∧ j ≠ s) := by
            intro j
            simp only [List.mem_append, List.mem_cons]
            constructor
            · rintro ((rfl | hj) | hj)
              · exact ⟨Or.inr (Or.inl rfl), fun h => hsb h.symm⟩
              · exact ⟨Or.inl (Or.inr hj), fun h => hs1 (h ▸ hj)⟩
              · exact ⟨Or.inr (Or.inr hj), fun h => hs3 (h ▸ hj)⟩
            · rintro ⟨(rfl | hj) | (rfl | hj), hne⟩
              · exact absurd rfl hne
              · exact Or.inl (Or.inr hj)
              · exact Or.inl (Or.inl rfl)
              · exact Or.inr hj
          have hih := ih (ap.set b apb) (al.set s b) (b :: srest) brest
            (by
              simp only [List.length_cons, List.length_append] at hfuel ⊢
              omega)
            (by rw [hap2len, hal2len, hlen])
            (fun j hj => by
              rw [hal2len]
              exact hmem j ((hmem_then j).mp hj).1)
            ((List.perm_middle.nodup_iff).mp hnd2)
            (fun j hj => by
              rcases List.mem_cons.mp hj with rfl | hj2
              · rw [hap2b]; exact hlt
              · rw [hap2j j fun h => hbsrest (h ▸ hj2)]
                exact hsm j (List.mem_cons_of_mem s hj2))
            (fun j hj => by
              rw [hap2j j fun h => hbbrest (h ▸ hj)]
              exact hbg j (List.mem_cons_of_mem b hj))
            (fun j hjn hja => by
              rw [hal2len] at hjn
              by_cases hjs : j = s
              · subst hjs
                rw [hap2j _ hsb]
                exact le_of_lt (hsm _ (List.mem_cons_self _ _))
              · have hjact : j ∉ (s :: srest) ++ b :: brest :=
                  fun h => hja ((hmem_then j).mpr ⟨h, hjs⟩)
                have hjb : j ≠ b := fun h => hjact (h ▸ hb_mem)
                rw [hap2j _ hjb]
                exact hinact j hjn hjact)
            (by
              have h1 : ((b :: srest) ++ brest) = b :: (srest ++ brest) := rfl
              rw [h1, idxSum_cons, hap2b,
                idxSum_set_not_mem ap b apb _ (by
                  intro h
                  rcases List.mem_append.mp h with h2 | h2
                  · exact hbsrest h2
                  · exact hbbrest h2),
                idxSum_append2]
              simp only [List.length_cons, List.length_append]
              push_cast
              rw [happb]
              linarith [hsum_split])
            i
          rw [hal2len] at hih
          rw [hih]
          exact hRHS ((b :: srest) ++ brest) hmem_then
        · rw [if_neg hlt]
          have hmem_else : ∀ j, j ∈ srest ++ b :: brest
              ↔ (j ∈ (s :: srest) ++ b :: brest ∧ j ≠ s) := by
            intro j
            simp only [List.mem_append, List.mem_cons]
            constructor
            · rintro (hj | rfl | hj)
              · exact ⟨Or.inl (Or.inr hj), fun h => hs1 (h ▸ hj)⟩
              · exact ⟨Or.inr (Or.inl rfl), fun h => hsb h.symm⟩
              · exact ⟨Or.inr (Or.inr hj), fun h => hs3 (h ▸ hj)⟩
            · rintro ⟨(rfl | hj) | (rfl | hj), hne⟩
              · exact absurd rfl hne
              · exact Or.inl hj
              · exact Or.inr (Or.inl rfl)
              · exact Or.inr (Or.inr hj)
          have hih := ih (ap.set b apb) (al.set s b) srest (b :: brest)
            (by
              simp only [List.length_cons, List.length_append] at hfuel ⊢
              omega)
            (by rw [hap2len, hal2len, hlen])
            (fun j hj => by
              rw [hal2len]
              exact hmem j ((hmem_else j).mp hj).1)
            hnd2
            (fun j hj => by
              rw [hap2j j fun h => hbsrest (h ▸ hj)]
              exact hsm j (List.mem_cons_of_mem s hj))
            (fun j hj => by
              rcases List.mem_cons.mp hj with rfl | hj2
              · rw [hap2b]; exact not_lt.mp hlt
              · rw [hap2j j fun h => hbbrest (h ▸ hj2)]
                exact hbg j (List.mem_cons_of_mem b hj2))
            (fun j hjn hja => by
              rw [hal2len] at hjn
              by_cases hjs : j = s
              · subst hjs
                rw [hap2j _ hsb]
                exact le_of_lt (hsm _ (List.mem_cons_self _ _))
              · have hjact : j ∉ (s :: srest) ++ b :: brest :=
                  fun h => hja ((hmem_else j).mpr ⟨h, hjs⟩)
                have hjb : j ≠ b := fun h => hjact (h ▸ hb_mem)
                rw [hap2j _ hjb]
                exact hinact j hjn hjact)
            (by
              rw [idxSum_append2, idxSum_cons, hap2b,
                idxSum_set_not_mem ap b apb srest hbsrest,
                idxSum_set_not_mem ap b apb brest hbbrest]
              simp only [List.length_cons, List.length_append]
              push_cast
              rw [happb]
              linarith [hsum_split])
            i
          rw [hal2len] at hih
          rw [hih]
          exact hRHS (srest ++ b :: brest) hmem_else

/-- Range/getD sum identity: summing getD over the index range of a list
gives the list sum. -/
theorem idxSum_range_getD (l : List K) : idxSum l (List.range l.length) = l.sum := by
  unfold idxSum
  induction l with
  | nil => simp
  | cons a t ih =>
    simp only [List.length_cons, List.range_succ_eq_map, List.map_cons, List.map_map,
      List.sum_cons, Function.comp_def, List.getD_cons_zero, List.getD_cons_succ]
    rw [ih]

/-- getD through a map, inside bounds. -/
theorem getD_map_lt {α : Type} (l : List α) (f : α → K) (i : ℕ) (h : i < l.length)
    (d : α) : (l.map f).getD i (f d) = f (l.getD i d) := by
  rw [List.getD_eq_getElem?_getD, List.getElem?_map, List.getD_eq_getElem?_getD,
    List.getElem?_eq_getElem h]
  simp

/-- Scaling a list scales its sum. -/
theorem sum_map_mul_const (c : K) (l : List K) :
    (l.map fun p => c * p).sum = c * l.sum := by
  induction l with
  | nil => simp
  | cons a t ih => simp [List.map_cons, List.sum_cons, ih, mul_add]

/-- C9: for every weight vector summing to one, the alias table built by
setup_alias satisfies, at every state i, the marginal identity
min(alias_probs[i], 1) + sum over j with aliases[j] = i of
max(1 - alias_probs[j], 0) = n_states * probs[i] — so a single
sample_alias draw with uniform inputs lands on i with probability exactly
probs[i]. -/
theorem setup_alias_marginal (probs : List K) (hsum : probs.sum = 1)
    (i : ℕ) (hi : i < probs.length) :
    aliasMass (setup_alias probs).1 (setup_alias probs).2 i
      = (probs.length : K) * probs.getD i 0 := by
  simp only [setup_alias]
  have h_ap0_len : (probs.map fun p => ((probs.length : ℕ) : K) * p).length
      = probs.length := List.length_map _ _
  have h_al0_len : (List.range probs.length).length = probs.length :=
    List.length_range _
  have h_mem_sm : ∀ j, j ∈ ((List.range probs.length).filter fun j =>
        decide ((probs.map fun p => ((probs.length : ℕ) : K) * p).getD j 0 < 1)).reverse
      ↔ (j < probs.length ∧
        (probs.map fun p => ((probs.length : ℕ) : K) * p).getD j 0 < 1) := by
    intro j
    simp [List.mem_reverse, List.mem_filter, List.mem_range]
  have h_mem_bg : ∀ j, j ∈ ((List.range probs.length).filter fun j =>
        decide (¬ (probs.map fun p => ((probs.length : ℕ) : K) * p).getD j 0 < 1)).reverse
      ↔ (j < probs.length ∧
        ¬ (probs.map fun p => ((probs.length : ℕ) : K) * p).getD j 0 < 1) := by
    intro j
    simp [List.mem_reverse, List.mem_filter, List.mem_range]
  have hperm : List.Perm
      (((List.range probs.length).filter fun j =>
          decide ((probs.map fun p => ((probs.length : ℕ) : K) * p).getD j 0 < 1)).reverse
        ++ ((List.range probs.length).filter fun j =>
          decide (¬ (probs.map fun p => ((probs.length : ℕ) : K) * p).getD j 0 < 1)).reverse)
      (List.range probs.length) := by
    have hneg : (fun j => decide
          (¬ (probs.map fun p => ((probs.length : ℕ) : K) * p).getD j 0 < 1))
        = fun j => ! decide
          ((probs.map fun p => ((probs.length : ℕ) : K) * p).getD j 0 < 1) := by
      funext j
      simp only [decide_not]
    rw [hneg]
    exact ((List.reverse_perm _).append (List.reverse_perm _)).trans
      (List.filter_append_perm _ _)
  have h_mem_act : ∀ j, j ∈ (((List.range probs.length).filter fun j =>
        decide ((probs.map fun p => ((probs.length : ℕ) : K) * p).getD j 0 < 1)).reverse
        ++ ((List.range probs.length).filter fun j =>
          decide (¬ (probs.map fun p => ((probs.length : ℕ) : K) * p).getD j 0 < 1)).reverse)
      ↔ j < probs.length := by
    intro j
    rw [hperm.mem_iff, List.mem_range]
  have hgetD : ∀ j, j < probs.length →
      (probs.map fun p => ((probs.length : ℕ) : K) * p).getD j 0
        = (probs.length : K) * probs.getD j 0 := by
    intro j hj
    have := getD_map_lt probs (fun p => ((probs.length : ℕ) : K) * p) j hj 0
    simpa using this
  rw [setup_alias_loop_mass _ _ _ _ _ (le_refl _)
    (by rw [h_ap0_len, h_al0_len])
    (fun j hj => by rw [h_al0_len]; exact (h_mem_act j).mp hj)
    (hperm.symm.nodup (List.nodup_range _))
    (fun j hj => ((h_mem_sm j).mp hj).2)
    (fun j hj => not_lt.mp ((h_mem_bg j).mp hj).2)
    (fun j hjn hja => absurd ((h_mem_act j).mpr (by rwa [h_al0_len] at hjn)) hja)
    (by
      rw [idxSum, (hperm.map _).sum_eq]
      have h1 : idxSum (probs.map fun p => ((probs.length : ℕ) : K) * p)
          (List.range probs.length)
          = (probs.map fun p => ((probs.length : ℕ) : K) * p).sum := by
        have := idxSum_range_getD (probs.map fun p => ((probs.length : ℕ) : K) * p)
        rwa [h_ap0_len] at this
      rw [idxSum] at h1
      rw [h1, hperm.length_eq, List.length_range]
      rw [sum_map_mul_const ((probs.length : ℕ) : K) probs, hsum, mul_one])
    i]
  rw [if_pos ((h_mem_act i).mpr hi), hgetD i hi]
  have hz : redirSum (probs.map fun p => ((probs.length : ℕ) : K) * p)
      (List.range probs.length)
      (((List.range probs.length).filter fun j =>
          decide ((probs.map fun p => ((probs.length : ℕ) : K) * p).getD j 0 < 1)).reverse
        ++ ((List.range probs.length).filter fun j =>
          decide (¬ (probs.map fun p => ((probs.length : ℕ) : K) * p).getD j 0 < 1)).reverse)
      (List.range probs.length).length i = 0 := by
    unfold redirSum
    have hall : ∀ j ∈ List.range (List.range probs.length).length,
        (if (List.range probs.length).getD j 0 = i ∧
            j ∉ (((List.range probs.length).filter fun j =>
              decide ((probs.map fun p => ((probs.length : ℕ) : K) * p).getD j 0 < 1)).reverse
            ++ ((List.range probs.length).filter fun j =>
              decide (¬ (probs.map fun p =>
                ((probs.length : ℕ) : K) * p).getD j 0 < 1)).reverse)
          then 1 - (probs.map fun p => ((probs.length : ℕ) : K) * p).getD j 0 else 0)
        = 0 := by
      intro j hj
      have hjn : j < probs.length := by
        rw [← h_al0_len]
        exact List.mem_range.mp hj
      exact if_neg fun h => h.2 ((h_mem_act j).mpr hjn)
    rw [List.map_congr_left hall]
    simp
  rw [hz, add_zero]

/-- Witness for C9: the two-state vector [1/4, 3/4] sums to one and the
alias table assigns state 0 marginal mass 2 * (1/4). -/
theorem setup_alias_marginal_witness :
    ([(1 : ℚ)/4, 3/4].sum = 1) ∧
    aliasMass (setup_alias [(1 : ℚ)/4, 3/4]).1 (setup_alias [(1 : ℚ)/4, 3/4]).2 0
      = (([(1 : ℚ)/4, 3/4].length : ℚ)) * [(1 : ℚ)/4, 3/4].getD 0 0 :=
  ⟨by norm_num, setup_alias_marginal _ (by norm_num) 0 (by simp)⟩


/- ----------------------------------------------------------------------
   C1: unbiasedness of find_preserve + sys_comp over the uniform draw. -/

/-- The sign expression times the magnitude recovers the value. -/
theorem sgn_mul_abs (v : K) : sgn v * |v| = v := by
  unfold sgn
  rcases lt_trichotomy v 0 with h | h | h
  · rw [if_neg (by linarith), if_pos h, abs_of_neg h]
    ring
  · subst h
    simp
  · rw [if_pos h, if_neg (by linarith), abs_of_pos h]
    ring

/-- An unflagged zero entry passes through the sys_comp scan as zero. -/
theorem sys_comp_loop_zero_val (glob : K) (m : ℕ) (samp : Bool) :
    ∀ (l : List (K × Bool)) (lb rn : K) (j : ℕ), j < l.length →
      (l.getD j (0, false)).2 = false → (l.getD j (0, false)).1 = 0 →
      (sys_comp_loop glob m l lb rn samp).1.getD j 0 = 0 := by
  intro l
  induction l with
  | nil => intro lb rn j hj; simp at hj
  | cons p rest ih =>
    obtain ⟨v, kf⟩ := p
    intro lb rn j hj hkf hvz
    rcases j with _ | j
    · have hkf0 : kf = false := hkf
      subst hkf0
      have hv0 : v = 0 := hvz
      subst hv0
      simp [sys_comp_loop]
    · have hj2 : j < rest.length := Nat.lt_of_succ_lt_succ hj
      have hkf2 : (rest.getD j (0, false)).2 = false := hkf
      have hvz2 : (rest.getD j (0, false)).1 = 0 := hvz
      cases kf
      · by_cases hv : v ≠ 0
        · by_cases hc : samp = true ∧ rn < lb + |v|
          · simpa [sys_comp_loop, hv, hc] using
              ih (lb + |v|) (rn + glob / (m : K)) j hj2 hkf2 hvz2
          · simpa [sys_comp_loop, hv, hc] using ih (lb + |v|) rn j hj2 hkf2 hvz2
        · simp only [ne_eq, not_not] at hv
          subst hv
          simpa [sys_comp_loop] using ih lb rn j hj2 hkf2 hvz2
      · simpa [sys_comp_loop] using ih lb rn j hj2 hkf2 hvz2

/-- Pivot characterization of the surviving value: with all residual
magnitudes below the pivot spacing and the random pointer starting within
one spacing above lbound, a residual nonzero entry survives (as spacing
times its sign) exactly when some pivot rn plus an integer number of
spacings falls in its sub-interval of the lbound axis; and its output
value is either that survivor value or zero. -/
theorem sys_comp_loop_value (glob : K) (m : ℕ) (hd : 0 < glob / (m : K)) :
    ∀ (l : List (K × Bool)) (lb rn : K),
      (∀ p ∈ l, p.2 = false → |p.1| < glob / (m : K)) →
      lb ≤ rn → rn < lb + glob / (m : K) →
      ∀ j, j < l.length → (l.getD j (0, false)).2 = false →
        (l.getD j (0, false)).1 ≠ 0 →
        (((sys_comp_loop glob m l lb rn true).1.getD j 0
            = glob / (m : K) * sgn (l.getD j (0, false)).1
          ↔ ∃ k : ℤ, lb + resAbs (l.take j) ≤ rn + (k : K) * (glob / (m : K))
              ∧ rn + (k : K) * (glob / (m : K))
                < lb + resAbs (l.take j) + |(l.getD j (0, false)).1|)
        ∧ ((sys_comp_loop glob m l lb rn true).1.getD j 0
            = glob / (m : K) * sgn (l.getD j (0, false)).1
          ∨ (sys_comp_loop glob m l lb rn true).1.getD j 0 = 0)) := by
  intro l
  induction l with
  | nil => intro lb rn _ _ _ j hj; simp at hj
  | cons p rest ih =>
    obtain ⟨v, kf⟩ := p
    intro lb rn hres hlb hub j hj hkf hnz
    have hrtail : ∀ p ∈ rest, p.2 = false → |p.1| < glob / (m : K) :=
      fun p hp => hres p (List.mem_cons_of_mem _ hp)
    rcases j with _ | j
    · -- the head entry itself
      have hkf0 : kf = false := hkf
      subst hkf0
      have hv : v ≠ 0 := hnz
      have hvlt : |v| < glob / (m : K) := hres (v, false) (List.mem_cons_self _ _) rfl
      have hne : glob / (m : K) * sgn v ≠ 0 := mul_sgn_ne_zero _ _ (ne_of_gt hd) hv
      simp only [List.getD_cons_zero, List.take_zero, resAbs, List.map_nil,
        List.sum_nil, add_zero]
      by_cases hc : rn < lb + |v|
      · rw [sys_comp_loop_cons_surv glob m v rest lb rn hv hc]
        simp only [List.getD_cons_zero]
        refine ⟨⟨fun _ => ⟨0, ?_, ?_⟩, fun _ => trivial⟩, Or.inl trivial⟩
        · push_cast
          linarith
        · push_cast
          linarith
      · rw [sys_comp_loop_cons_miss glob m true v rest lb rn hv (fun hh => hc hh.2)]
        simp only [List.getD_cons_zero]
        have hge : lb + |v| ≤ rn := not_lt.mp hc
        refine ⟨⟨fun habs => absurd habs.symm hne, ?_⟩, Or.inr trivial⟩
        rintro ⟨k, hk1, hk2⟩
        exfalso
        rcases le_or_lt 0 k with hk0 | hkneg
        · have hkK : (0 : K) ≤ (k : K) := by exact_mod_cast hk0
          have : (0 : K) ≤ (k : K) * (glob / (m : K)) :=
            mul_nonneg hkK (le_of_lt hd)
          linarith
        · have hk1' : k ≤ -1 := by omega
          have hkK : (k : K) ≤ -1 := by exact_mod_cast hk1'
          have : (k : K) * (glob / (m : K)) ≤ (-1) * (glob / (m : K)) :=
            mul_le_mul_of_nonneg_right hkK (le_of_lt hd)
          linarith
    · -- an entry further down
      have hj2 : j < rest.length := Nat.lt_of_succ_lt_succ hj
      have hkf2 : (rest.getD j (0, false)).2 = false := hkf
      have hnz2 : (rest.getD j (0, false)).1 ≠ 0 := hnz
      have htake : ((v, kf) :: rest).take (j + 1) = (v, kf) :: rest.take j := rfl
      cases kf
      · by_cases hv : v ≠ 0
        · have hvlt : |v| < glob / (m : K) :=
            hres (v, false) (List.mem_cons_self _ _) rfl
          by_cases hc : rn < lb + |v|
          · -- head survives and consumes the pivot
            rw [sys_comp_loop_cons_surv glob m v rest lb rn hv hc]
            have hih := ih (lb + |v|) (rn + glob / (m : K)) hrtail
              (by linarith) (by linarith) j hj2 hkf2 hnz2
            simp only [List.getD_cons_succ, htake, resAbs_cons_false]
            refine ⟨?_, hih.2⟩
            rw [hih.1]
            constructor
            · rintro ⟨k, h1, h2⟩
              refine ⟨k + 1, ?_, ?_⟩
              · push_cast
                linarith
              · push_cast
                linarith
            · rintro ⟨k, h1, h2⟩
              refine ⟨k - 1, ?_, ?_⟩
              · push_cast
                linarith
              · push_cast
                linarith
          · -- head missed: pointer unchanged
            rw [sys_comp_loop_cons_miss glob m true v rest lb rn hv
              (fun hh => hc hh.2)]
            have hge : lb + |v| ≤ rn := not_lt.mp hc
            have hih := ih (lb + |v|) rn hrtail hge
              (by linarith [abs_nonneg v]) j hj2 hkf2 hnz2
            simp only [List.getD_cons_succ, htake, resAbs_cons_false]
            refine ⟨?_, hih.2⟩
            rw [hih.1]
            constructor
            · rintro ⟨k, h1, h2⟩
              exact ⟨k, by linarith, by linarith⟩
            · rintro ⟨k, h1, h2⟩
              exact ⟨k, by linarith, by linarith⟩
        · -- zero unflagged head: untouched
          simp only [ne_eq, not_not] at hv
          subst hv
          rw [sys_comp_loop_cons_zero glob m true rest lb rn]
          have hih := ih lb rn hrtail hlb hub j hj2 hkf2 hnz2
          simp only [List.getD_cons_succ, htake, resAbs_cons_false, abs_zero]
          refine ⟨?_, hih.2⟩
          rw [hih.1]
          constructor
          · rintro ⟨k, h1, h2⟩
            exact ⟨k, by linarith, by linarith⟩
          · rintro ⟨k, h1, h2⟩
            exact ⟨k, by linarith, by linarith⟩
      · -- flagged head: state unchanged
        rw [sys_comp_loop_cons_kept glob m true v rest lb rn]
        have hih := ih lb rn hrtail hlb hub j hj2 hkf2 hnz2
        simp only [List.getD_cons_succ, htake, resAbs_cons_true]
        exact hih

/-- C1 amended: the compression is unbiased at every in-range index that is
either marked keep-exact or subject to the non-degenerate sampling path
(remaining norm at least the 1e-9 cutoff): the integral of the compressed
entry over the uniform draw in the unit interval equals the original
entry.  In the window 0 < gFinal < 1e-9 the sampler is short-circuited
and the estimate is biased (see the counterexample). -/
theorem compress_unbiased (values : List ℝ) (n0 : ℕ) (i : ℕ)
    (hi : i < values.length) (hn0 : 1 ≤ n0)
    (hcase : (find_preserve values n0).keep.getD i false = true
      ∨ eps9 ℝ ≤ (find_preserve values n0).gFinal) :
    (∫ u in Set.Ico (0:ℝ) 1, (fri_compress values n0 u).1.getD i 0)
      = values.getD i 0 := by
  have hkeeplen := find_preserve_keep_length values n0
  have hiz : i < (values.zip (find_preserve values n0).keep).length := by
    rw [List.length_zip, hkeeplen]
    simpa using hi
  have hzgetD := zip_keep_getD values n0 i hi
  by_cases hkeep : (find_preserve values n0).keep.getD i false = true
  · -- flagged keep-exact: the integrand is constant in the draw
    have hk2 : ((values.zip (find_preserve values n0).keep).getD i (0, false)).2
        = true := by
      rw [hzgetD]
      exact hkeep
    have hv2 : ((values.zip (find_preserve values n0).keep).getD i (0, false)).1
        = values.getD i 0 := by
      rw [hzgetD]
    have hconst : ∀ u : ℝ,
        (fri_compress values n0 u).1.getD i 0 = values.getD i 0 := by
      intro u
      simp only [fri_compress, sys_comp]
      split
      · rw [sys_comp_loop_kept _ _ _ _ _ _ i hiz hk2, hv2]
      · rw [sys_comp_loop_kept _ _ _ _ _ _ i hiz hk2, hv2]
    simp only [hconst]
    rw [MeasureTheory.setIntegral_const, Real.volume_Ico]
    simp
  · -- residual entry: the non-degenerate sampling path
    have hkeepf : (find_preserve values n0).keep.getD i false = false := by
      cases h : (find_preserve values n0).keep.getD i false
      · rfl
      · exact absurd h hkeep
    have hge : eps9 ℝ ≤ (find_preserve values n0).gFinal := by
      rcases hcase with h | h
      · exact absurd h hkeep
      · exact h
    have heps : (0 : ℝ) < eps9 ℝ := by norm_num [eps9]
    have hnotlt : ¬ (find_preserve values n0).gFinal < eps9 ℝ := not_lt.mpr hge
    have hn0' : 0 < n0 := hn0
    have hpoplt : (find_preserve values n0).popped < n0 := by
      rcases Nat.lt_or_ge (find_preserve values n0).popped n0 with h | h
      · exact h
      · exfalso
        have hple := fp_loop_popped_le values n0 values.length
          (List.range values.length) (absSum values) 0 (Nat.zero_le n0)
        rw [← (find_preserve_fields values n0).2.2.2.1] at hple
        have hpe : (find_preserve values n0).popped = n0 := by omega
        have hb := fp_loop_budget values n0 values.length
          (List.range values.length) (absSum values) 0 hn0'
          (idxAbsSum_range values).symm
        rw [← (find_preserve_fields values n0).2.2.2.1] at hb
        have hz := hb hpe
        rw [← (find_preserve_fields values n0).2.2.1] at hz
        rw [hz] at hge
        linarith
    have hns : (find_preserve values n0).nSamp =
        n0 - (find_preserve values n0).popped := by
      rw [(find_preserve_fields values n0).2.2.2.2.2.2.1, if_neg hnotlt]
    have hm1 : 1 ≤ (find_preserve values n0).nSamp := by omega
    have hret : (find_preserve values n0).ret = (find_preserve values n0).gFinal :=
      fp_ret_eq_gFinal values n0 hnotlt
    have hretpos : 0 < (find_preserve values n0).ret := by
      rw [hret]
      linarith
    have hmK : (0 : ℝ) < ((find_preserve values n0).nSamp : ℝ) := by
      exact_mod_cast hm1
    have hD : 0 < (find_preserve values n0).ret /
        ((find_preserve values n0).nSamp : ℝ) := div_pos hretpos hmK
    have hresb : ∀ p ∈ values.zip (find_preserve values n0).keep,
        p.2 = false → |p.1| < (find_preserve values n0).ret /
          ((find_preserve values n0).nSamp : ℝ) := by
      intro p hp hflag
      have hmemz : ∃ j, j < values.length ∧
          p = (values.getD j 0, decide (j ∈ (find_preserve values n0).kept)) := by
        rw [(find_preserve_fields values n0).2.2.2.2.1, zip_range_map] at hp
        rcases List.mem_map.mp hp with ⟨j, hj, rfl⟩
        exact ⟨j, by simpa using hj, rfl⟩
      rcases hmemz with ⟨j, hj, rfl⟩
      simp only [decide_eq_false_iff_not] at hflag
      have hmemF := fp_not_kept_mem_heapF values n0 j hj hflag
      have hexit := fp_loop_exit values n0 values.length
        (List.range values.length) (absSum values) 0 (by simp) (Nat.zero_le n0)
      rw [← (find_preserve_fields values n0).2.1,
          ← (find_preserve_fields values n0).2.2.1,
          ← (find_preserve_fields values n0).2.2.2.1] at hexit
      rcases hexit with hempty | hfull | ⟨-, hbound⟩
      · rw [hempty] at hmemF
        simp at hmemF
      · omega
      · have := hbound j hmemF
        rw [hret, hns]
        simpa using this
    set D := (find_preserve values n0).ret /
      ((find_preserve values n0).nSamp : ℝ) with hDdef
    have hvflag : ((values.zip (find_preserve values n0).keep).getD i (0, false)).2
        = false := by
      rw [hzgetD]
      exact hkeepf
    by_cases hvz : values.getD i 0 = 0
    · -- zero residual entry: the scan leaves it at zero
      have hvz2 : ((values.zip (find_preserve values n0).keep).getD i (0, false)).1
          = 0 := by
        rw [hzgetD]
        exact hvz
      have hconst : ∀ u : ℝ, (fri_compress values n0 u).1.getD i 0 = 0 := by
        intro u
        simp only [fri_compress, sys_comp]
        split
        · exact sys_comp_loop_zero_val _ _ _ _ _ _ i hiz hvflag hvz2
        · exact sys_comp_loop_zero_val _ _ _ _ _ _ i hiz hvflag hvz2
      simp only [hconst]
      rw [hvz]
      simp
    · -- nonzero residual entry: the full pivot computation
      have hpmem : (values.zip (find_preserve values n0).keep).getD i (0, false)
          ∈ values.zip (find_preserve values n0).keep := by
        rw [List.getD_eq_getElem _ _ hiz]
        exact List.getElem_mem _
      have hvlt : |values.getD i 0| < D := by
        have h := hresb _ hpmem hvflag
        rw [hzgetD] at h
        exact h
      set A := resAbs ((values.zip (find_preserve values n0).keep).take i) with hAdef
      have hAnn : 0 ≤ A := resAbs_nonneg _
      set c := Int.fract (A / D) with hcdef
      set L := |values.getD i 0| / D with hLdef
      have hc0 : 0 ≤ c := Int.fract_nonneg _
      have hc1 : c < 1 := Int.fract_lt_one _
      have hL0 : 0 < L := div_pos (abs_pos.mpr hvz) hD
      have hL1 : L < 1 := (div_lt_one hD).mpr hvlt
      have hLD : L * D = |values.getD i 0| := div_mul_cancel₀ _ (ne_of_gt hD)
      have hAD : A / D * D = A := div_mul_cancel₀ _ (ne_of_gt hD)
      have hcD : c = A / D - (⌊A / D⌋ : ℝ) := Int.fract.eq_1 _
      have hpt : Set.EqOn (fun u => (fri_compress values n0 u).1.getD i 0)
          ((Set.Ico c (c + L) ∪ Set.Ico (c - 1) (c + L - 1)).indicator
            (fun _ => D * sgn (values.getD i 0))) (Set.Ico (0:ℝ) 1) := by
        intro u hu
        obtain ⟨hu0, hu1⟩ := hu
        have hrn := seed_sys_nonneg_eq (find_preserve values n0).ret
          (find_preserve values n0).nSamp u (mul_nonneg hu0 (le_of_lt hD))
        have hgoal1 : (fri_compress values n0 u).1 =
            (sys_comp_loop (find_preserve values n0).ret
              (find_preserve values n0).nSamp
              (values.zip (find_preserve values n0).keep) 0 (u * D) true).1 := by
          simp only [fri_compress, sys_comp]
          rw [if_pos (by omega : 0 < (find_preserve values n0).nSamp), hrn]
        have huD : u * D < 0 + D := by
          have h := mul_lt_mul_of_pos_right hu1 hD
          simpa using h
        have hval := sys_comp_loop_value (find_preserve values n0).ret
          (find_preserve values n0).nSamp hD
          (values.zip (find_preserve values n0).keep) 0 (u * D)
          hresb (by positivity) huD i hiz hvflag
          (by rw [hzgetD]; exact hvz)
        simp only [hzgetD, zero_add] at hval
        rw [← hAdef] at hval
        have hmemiff : (u ∈ Set.Ico c (c + L) ∪ Set.Ico (c - 1) (c + L - 1))
            ↔ ∃ k : ℤ, A ≤ u * D + (k : ℝ) * D ∧
                u * D + (k : ℝ) * D < A + |values.getD i 0| := by
          constructor
          · rintro (⟨h1, h2⟩ | ⟨h1, h2⟩)
            · refine ⟨⌊A / D⌋, ?_, ?_⟩
              · have hq : A / D ≤ u + (⌊A / D⌋ : ℝ) := by
                  rw [hcD] at h1
                  linarith
                calc A = A / D * D := hAD.symm
                  _ ≤ (u + (⌊A / D⌋ : ℝ)) * D :=
                    mul_le_mul_of_nonneg_right hq (le_of_lt hD)
                  _ = u * D + (⌊A / D⌋ : ℝ) * D := by ring
              · have hq : u + (⌊A / D⌋ : ℝ) < A / D + L := by
                  rw [hcD] at h2
                  linarith
                calc u * D + (⌊A / D⌋ : ℝ) * D
                    = (u + (⌊A / D⌋ : ℝ)) * D := by ring
                  _ < (A / D + L) * D := mul_lt_mul_of_pos_right hq hD
                  _ = A / D * D + L * D := by ring
                  _ = A + |values.getD i 0| := by rw [hAD, hLD]
            · refine ⟨⌊A / D⌋ + 1, ?_, ?_⟩
              · have hq : A / D ≤ u + ((⌊A / D⌋ : ℝ) + 1) := by
                  rw [hcD] at h1
                  linarith
                calc A = A / D * D := hAD.symm
                  _ ≤ (u + ((⌊A / D⌋ : ℝ) + 1)) * D :=
                    mul_le_mul_of_nonneg_right hq (le_of_lt hD)
                  _ = u * D + ((⌊A / D⌋ + 1 : ℤ) : ℝ) * D := by
                    push_cast
                    ring
              · have hq : u + ((⌊A / D⌋ : ℝ) + 1) < A / D + L := by
                  rw [hcD] at h2
                  linarith
                calc u * D + ((⌊A / D⌋ + 1 : ℤ) : ℝ) * D
                    = (u + ((⌊A / D⌋ : ℝ) + 1)) * D := by
                      push_cast
                      ring
                  _ < (A / D + L) * D := mul_lt_mul_of_pos_right hq hD
                  _ = A / D * D + L * D := by ring
                  _ = A + |values.getD i 0| := by rw [hAD, hLD]
          · rintro ⟨k, h1, h2⟩
            have hq1 : A / D ≤ u + (k : ℝ) := by
              rw [div_le_iff hD]
              calc A ≤ u * D + (k : ℝ) * D := h1
                _ = (u + (k : ℝ)) * D := by ring
            have hq2 : u + (k : ℝ) < A / D + L := by
              have h3 : (u + (k : ℝ)) * D < (A / D + L) * D := by
                calc (u + (k : ℝ)) * D = u * D + (k : ℝ) * D := by ring
                  _ < A + |values.getD i 0| := h2
                  _ = A / D * D + L * D := by rw [hAD, hLD]
                  _ = (A / D + L) * D := by ring
              exact lt_of_mul_lt_mul_right h3 (le_of_lt hD)
            have hck1 : c ≤ u + ((k - ⌊A / D⌋ : ℤ) : ℝ) := by
              rw [hcD]
              push_cast
              linarith
            have hck2 : u + ((k - ⌊A / D⌋ : ℤ) : ℝ) < c + L := by
              rw [hcD]
              push_cast
              linarith
            have hkp0 : 0 ≤ k - ⌊A / D⌋ := by
              by_contra hneg
              have hle : k - ⌊A / D⌋ ≤ -1 := by omega
              have hleR : ((k - ⌊A / D⌋ : ℤ) : ℝ) ≤ -1 := by exact_mod_cast hle
              linarith
            have hkp1 : k - ⌊A / D⌋ ≤ 1 := by
              by_contra hgt
              have hle : (2 : ℤ) ≤ k - ⌊A / D⌋ := by omega
              have hleR : (2 : ℝ) ≤ ((k - ⌊A / D⌋ : ℤ) : ℝ) := by exact_mod_cast hle
              linarith
            have hcases : k - ⌊A / D⌋ = 0 ∨ k - ⌊A / D⌋ = 1 := by omega
            rcases hcases with h0 | h1c
            · left
              rw [h0] at hck1 hck2
              push_cast at hck1 hck2
              exact ⟨by linarith, by linarith⟩
            · right
              rw [h1c] at hck1 hck2
              push_cast at hck1 hck2
              exact ⟨by linarith, by linarith⟩
        by_cases humem : u ∈ Set.Ico c (c + L) ∪ Set.Ico (c - 1) (c + L - 1)
        · simp only [Set.indicator_of_mem humem]
          rw [hgoal1]
          exact hval.1.mpr (hmemiff.mp humem)
        · simp only [Set.indicator_of_not_mem humem]
          rw [hgoal1]
          rcases hval.2 with he | he
          · exact absurd (hmemiff.mpr (hval.1.mp he)) humem
          · exact he
      rw [MeasureTheory.setIntegral_congr_fun measurableSet_Ico hpt,
        MeasureTheory.setIntegral_indicator (measurableSet_Ico.union measurableSet_Ico),
        MeasureTheory.setIntegral_const, Set.inter_union_distrib_left,
        Set.Ico_inter_Ico, Set.Ico_inter_Ico, max_eq_right hc0,
        max_eq_left (by linarith : c - 1 ≤ (0:ℝ)),
        min_eq_right (by linarith : c + L - 1 ≤ (1:ℝ))]
      have hdisj : Disjoint (Set.Ico c (min 1 (c + L))) (Set.Ico (0:ℝ) (c + L - 1)) := by
        apply Set.disjoint_left.mpr
        intro x hx1 hx2
        obtain ⟨ha1, -⟩ := hx1
        obtain ⟨-, hb2⟩ := hx2
        linarith
      rw [MeasureTheory.measure_union hdisj measurableSet_Ico,
        Real.volume_Ico, Real.volume_Ico]
      rcases le_or_lt (c + L) 1 with hcl | hcl
      · rw [min_eq_right hcl]
        have h1 : ENNReal.ofReal (c + L - 1 - 0) = 0 := by
          rw [ENNReal.ofReal_eq_zero]
          linarith
        rw [h1, add_zero, ENNReal.toReal_ofReal (by linarith : (0:ℝ) ≤ c + L - c)]
        have h2 : c + L - c = L := by ring
        rw [h2, smul_eq_mul]
        calc L * (D * sgn (values.getD i 0))
            = sgn (values.getD i 0) * (L * D) := by ring
          _ = sgn (values.getD i 0) * |values.getD i 0| := by rw [hLD]
          _ = values.getD i 0 := sgn_mul_abs _
      · rw [min_eq_left (le_of_lt hcl),
          ← ENNReal.ofReal_add (by linarith : (0:ℝ) ≤ 1 - c)
            (by linarith : (0:ℝ) ≤ c + L - 1 - 0),
          ENNReal.toReal_ofReal (by linarith : (0:ℝ) ≤ 1 - c + (c + L - 1 - 0))]
        have h2 : 1 - c + (c + L - 1 - 0) = L := by ring
        rw [h2, smul_eq_mul]
        calc L * (D * sgn (values.getD i 0))
            = sgn (values.getD i 0) * (L * D) := by ring
          _ = sgn (values.getD i 0) * |values.getD i 0| := by rw [hLD]
          _ = values.getD i 0 := sgn_mul_abs _

/-- C1 counterexample: the vector (1 / 2 to the 31, 1 / 2 to the 31) has
positive one-norm 2 to the -30, below the 1e-9 cutoff, so with budget 1
nothing is kept, n_samp is forced to 0 and the compressed entry is 0 for
every draw: its expectation is 0, not the original entry. -/
theorem compress_unbiased_counterexample :
    (∫ u in Set.Ico (0:ℝ) 1,
      (fri_compress ([1/2147483648, 1/2147483648] : List ℝ) 1 u).1.getD 0 0) = 0 ∧
    ([1/2147483648, 1/2147483648] : List ℝ).getD 0 0 ≠ 0 := by
  constructor
  · have hconst : ∀ u : ℝ,
        (fri_compress ([1/2147483648, 1/2147483648] : List ℝ) 1 u).1.getD 0 0
          = 0 := by
      intro u
      norm_num [fri_compress, find_preserve, find_preserve_loop, maxIdx, absSum,
        eps9, sys_comp, sys_comp_loop, seed_sys, abs_of_pos]
    simp only [hconst]
    simp
  · norm_num

/-- Witness for C1 amended at concrete inputs: the vector [2, 1] with
budget 1 keeps nothing (2 is below the norm 3) and its remaining norm 3 is
above the cutoff, so entry 0 is unbiased over the draw. -/
theorem compress_unbiased_witness :
    eps9 ℝ ≤ (find_preserve ([2, 1] : List ℝ) 1).gFinal ∧
    (∫ u in Set.Ico (0:ℝ) 1,
      (fri_compress ([2, 1] : List ℝ) 1 u).1.getD 0 0)
      = ([2, 1] : List ℝ).getD 0 0 :=
  ⟨by norm_num [find_preserve, find_preserve_loop, maxIdx, absSum, eps9, abs_of_pos],
   compress_unbiased _ 1 0 (by norm_num) (by norm_num)
     (Or.inr (by norm_num [find_preserve, find_preserve_loop, maxIdx, absSum, eps9,
       abs_of_pos]))⟩

end FRIES
